import Mathlib

/-!
Verification of the TextDiff library (src/index.ts).

Strings are modelled as `List Char` (one element per UTF-16 code unit; all
offsets reported by the library are code-unit offsets, which coincide with
list indices in this model).  Two platform capabilities used by the source
are not part of the repository and are therefore taken as parameters:

* `norm : Str → Str` stands for `String.prototype.normalize("NFC")`;
  theorems that need a property of NFC (idempotence) take it as a hypothesis.
* `wc : Char → Bool` stands for the character class `[\p{L}\p{N}\p{M}]`
  (the word-character test of the tokenizer's regexes).

`Intl.Segmenter` is likewise external; the locale-aware tokenizer path is
modelled over an arbitrary well-formed segment list (see `Segment`).
-/

namespace TD

abbrev Str := List Char

/-- `string.slice(a, b)` of JavaScript on in-range indices. -/
def strSlice (s : Str) (a b : Nat) : Str := (s.take b).drop a

inductive TokKind where
  | word : TokKind
  | sep : TokKind
deriving DecidableEq, Repr

/-- A token of the tokenizer.  The source field `end` is a Lean keyword and is
called `endIdx` here. -/
structure Token where
  kind : TokKind
  value : Str
  start : Nat
  endIdx : Nat
deriving DecidableEq, Repr

inductive ChangeType where
  | insert : ChangeType
  | delete : ChangeType
  | replace : ChangeType
  | spellCorrection : ChangeType
deriving DecidableEq, Repr

structure Pos where
  startIndex : Nat
  endIndex : Nat
deriving DecidableEq, Repr

structure TextDiff where
  oldText : Str
  position : Pos
  newText : Str
  changeType : ChangeType
deriving DecidableEq, Repr

structure ChangeRange where
  oldTokStart : Nat
  oldTokEnd : Nat
  newTokStart : Nat
  newTokEnd : Nat
deriving DecidableEq, Repr

def kindOf (b : Bool) : TokKind := if b then TokKind.word else TokKind.sep

/-! ## Tokenizer, regex fallback path

The fallback regex `([\p{L}\p{N}\p{M}]+)|([^\p{L}\p{N}\p{M}]+)` emits the
maximal runs of word characters and of non-word characters, in order, with
their positions.  `tkLoop` is that scan: `acc` is the run being collected
(all of class `k`), `st` its start offset and `pos` the current offset. -/

def tkLoop (wc : Char → Bool) : Str → Bool → Str → Nat → Nat → List Token
  | [], k, acc, st, pos => [⟨kindOf k, acc, st, pos⟩]
  | c :: rem, k, acc, st, pos =>
      if wc c = k then tkLoop wc rem k (acc ++ [c]) st (pos + 1)
      else ⟨kindOf k, acc, st, pos⟩ :: tkLoop wc rem (wc c) [c] pos (pos + 1)

def tokenizeFallback (wc : Char → Bool) : Str → List Token
  | [] => []
  | c :: rem => tkLoop wc rem (wc c) [c] 0 1

/-- `tokenize` of the source: it normalizes its input itself (line 35) and
then scans.  (`getTextDiffs` passes it already-normalized text, so the
input ends up normalized twice; see the refinement theorem for C9.) -/
def tokenize (wc : Char → Bool) (norm : Str → Str) (text : Str) : List Token :=
  tokenizeFallback wc (norm text)

/-! ## Tokenizer, locale-aware (`Intl.Segmenter`) path

Modelled from the spec: `Intl.Segmenter` itself is a platform capability,
not repository code; the spec (§4.2) describes its output as
boundary-delimited units, each tagged word-like or not.  A `Segment` is one
such unit; `segsWF` is the sanity the capability guarantees (units are
in-order, in-bounds, nonempty slices of the string). -/

structure Segment where
  value : Str
  index : Nat
  isWordLike : Option Bool
deriving DecidableEq, Repr

def segsWF (s : Str) : List Segment → Nat → Bool
  | [], _ => true
  | seg :: rest, cursor =>
      decide (cursor ≤ seg.index) &&
      decide (0 < seg.value.length) &&
      decide (seg.index + seg.value.length ≤ s.length) &&
      decide (seg.value = strSlice s seg.index (seg.index + seg.value.length)) &&
      segsWF s rest (seg.index + seg.value.length)

/-- Source lines 48-61: walk the segments, synthesizing a separator token for
any gap before a segment and after the last one; each segment becomes a token
whose kind comes from `isWordLike` when present, else from whether the
segment contains a word character. -/
def segTokens (wc : Char → Bool) (s : Str) : List Segment → Nat → List Token
  | [], cursor =>
      if cursor < s.length then [⟨TokKind.sep, strSlice s cursor s.length, cursor, s.length⟩]
      else []
  | seg :: rest, cursor =>
      (if cursor < seg.index then [⟨TokKind.sep, strSlice s cursor seg.index, cursor, seg.index⟩] else []) ++
      (⟨kindOf (seg.isWordLike.getD (seg.value.any wc)), seg.value, seg.index,
          seg.index + seg.value.length⟩ ::
        segTokens wc s rest (seg.index + seg.value.length))

def tokenizeSeg (wc : Char → Bool) (s : Str) (segs : List Segment) : List Token :=
  segTokens wc s segs 0

/-! ## LCS over token values (source lines 86-113)

The source fills an `(n+1)×(m+1)` table backward with
`dp[i][j] = dp[i+1][j+1]+1` on a value match, else
`max(dp[i+1][j], dp[i][j+1])`; `dp[i][j]` is therefore a pure function of
the two suffixes, embedded here as `lcsDP` on the suffix lists.  The
reconstruction loop is `lcsPairs`, carrying the absolute indices `i`, `j`.
Both are written with an auxiliary taking the already-specialised recursive
call on the shorter first list, so that the recursion is structural (and
hence kernel-reducible for the concrete-input witnesses). -/

def lcsDPAux (La : List Str → Nat) (x : Str) : List Str → Nat
  | [] => 0
  | y :: b => if x = y then La b + 1 else max (La (y :: b)) (lcsDPAux La x b)

def lcsDP : List Str → List Str → Nat
  | [], _ => 0
  | x :: a, b => lcsDPAux (lcsDP a) x b

def lcsPairsAux (Pa : List Str → Nat → Nat → List (Nat × Nat)) (La : List Str → Nat)
    (x : Str) : List Str → Nat → Nat → List (Nat × Nat)
  | [], _, _ => []
  | y :: b, i, j =>
      if x = y then (i, j) :: Pa b (i + 1) (j + 1)
      else if La (y :: b) ≥ lcsDPAux La x b then Pa (y :: b) (i + 1) j
      else lcsPairsAux Pa La x b i (j + 1)

def lcsPairs : List Str → List Str → Nat → Nat → List (Nat × Nat)
  | [], _, _, _ => []
  | x :: a, b, i, j => lcsPairsAux (lcsPairs a) (lcsDP a) x b i j

/-- `lcsIndicesTokens` of the source: the LCS runs over token `value`s. -/
def lcsIndicesTokens (a b : List Token) : List (Nat × Nat) :=
  lcsPairs (a.map Token.value) (b.map Token.value) 0 0

/-! ## Levenshtein distance (source lines 115-135)

The source computes the standard two-row rolling DP over prefixes, after
three early returns.  `levScan` is the inner loop over `b` (producing
`curr[1..m]`): at each step `d` is `prev[j-1]`, the head of the remaining
`prev` suffix is `prev[j]`, and `left` is `curr[j-1]`.  `levLoop` is the
outer loop over `a`.  `charCodeAt` equality on code units is `Char`
equality in this model. -/

def levScan (ai : Char) : Str → List Nat → Nat → List Nat
  | y :: bs, d :: rest, left =>
      let cost := if ai = y then 0 else 1
      let c := min (rest.headD 0 + 1) (min (left + 1) (d + cost))
      c :: levScan ai bs rest c
  | _, _, _ => []

def levLoop : Str → Str → List Nat → Nat → List Nat
  | [], _, prev, _ => prev
  | c :: rest, b, prev, i => levLoop rest b (i :: levScan c b prev i) (i + 1)

def levenshtein (a b : Str) : Nat :=
  if a = b then 0
  else if a.length = 0 then b.length
  else if b.length = 0 then a.length
  else (levLoop a b (List.range (b.length + 1)) 1).getD b.length 0

/-! ## Classifier (source lines 137-148)

`Math.ceil(0.3 * maxLen)` is computed by the source in floating point; for
every length at which 64-bit floats are exact enough (all lengths below
2^49, far beyond any representable string), it equals the exact rational
ceiling `⌈3·maxLen/10⌉ = (3*maxLen + 9) / 10`, which is how it is embedded. -/

def classifyChange (oldTokSlice newTokSlice : List Token) (oldSlice newSlice : Str) :
    ChangeType :=
  if oldSlice.length = 0 ∧ 0 < newSlice.length then ChangeType.insert
  else if newSlice.length = 0 ∧ 0 < oldSlice.length then ChangeType.delete
  else
    match oldTokSlice.filter (fun t => decide (t.kind = TokKind.word)),
        newTokSlice.filter (fun t => decide (t.kind = TokKind.word)) with
    | [ow], [nw] =>
        let d := levenshtein ow.value nw.value
        let maxLen := max ow.value.length nw.value.length
        if 0 < d ∧ d ≤ max 2 ((3 * maxLen + 9) / 10) then ChangeType.spellCorrection
        else ChangeType.replace
    | _, _ => ChangeType.replace

/-! ## Range extraction (source lines 166-179) -/

def extractLoop : List (Nat × Nat) → Nat → Nat → Nat → Nat → List ChangeRange
  | [], prevOld, prevNew, n, m =>
      if n > prevOld ∨ m > prevNew then [⟨prevOld, n, prevNew, m⟩] else []
  | (i, j) :: rest, prevOld, prevNew, n, m =>
      (if i > prevOld ∨ j > prevNew then [⟨prevOld, i, prevNew, j⟩] else []) ++
      extractLoop rest (i + 1) (j + 1) n m

/-! ## Merging (source lines 183-202)

The source folds over the ranges, mutating the last pushed range in place
when the token spans strictly between it and the current range are all
separators on both sides.  `mergeRec cur rest` is that fold with `cur` the
(still extendable) last range. -/

def allSepBetween (toks : List Token) (s e : Nat) : Bool :=
  if s ≤ e then ((toks.take e).drop s).all (fun t => decide (t.kind = TokKind.sep))
  else true

def mergeRec (oldToks newToks : List Token) : ChangeRange → List ChangeRange → List ChangeRange
  | cur, [] => [cur]
  | cur, ch :: rest =>
      if allSepBetween oldToks cur.oldTokEnd ch.oldTokStart ∧
          allSepBetween newToks cur.newTokEnd ch.newTokStart then
        mergeRec oldToks newToks ⟨cur.oldTokStart, ch.oldTokEnd, cur.newTokStart, ch.newTokEnd⟩ rest
      else cur :: mergeRec oldToks newToks ch rest

def mergeRanges (oldToks newToks : List Token) : List ChangeRange → List ChangeRange
  | [] => []
  | ch :: rest => mergeRec oldToks newToks ch rest

/-! ## Diff building (source lines 204-242) -/

def dummyTok : Token := ⟨TokKind.sep, [], 0, 0⟩

/-- Old-side offsets of a change range (source lines 209-218). -/
def oldOffsets (oldToks : List Token) (ch : ChangeRange) : Pos :=
  if ch.oldTokStart < ch.oldTokEnd then
    ⟨(oldToks.getD ch.oldTokStart dummyTok).start,
     (oldToks.getD (ch.oldTokEnd - 1) dummyTok).endIdx⟩
  else
    let s := if 1 ≤ ch.oldTokStart then (oldToks.getD (ch.oldTokStart - 1) dummyTok).endIdx else 0
    ⟨s, s⟩

/-- New-side offsets, only meaningful when the new span is nonempty
(source lines 220-225). -/
def newOffsets (newToks : List Token) (ch : ChangeRange) : Pos :=
  ⟨(newToks.getD ch.newTokStart dummyTok).start,
   (newToks.getD (ch.newTokEnd - 1) dummyTok).endIdx⟩

def tokSpan (toks : List Token) (s e : Nat) : List Token := (toks.take e).drop s

def buildDiffs (oldS newS : Str) (oldToks newToks : List Token) :
    List ChangeRange → List TextDiff
  | [] => []
  | ch :: rest =>
      let hasNew := ch.newTokStart < ch.newTokEnd
      let op := oldOffsets oldToks ch
      let np := newOffsets newToks ch
      let oldSlice := strSlice oldS op.startIndex op.endIndex
      let newSlice := if hasNew then strSlice newS np.startIndex np.endIndex else []
      if oldSlice = newSlice then buildDiffs oldS newS oldToks newToks rest
      else
        ⟨oldSlice, op, newSlice,
          classifyChange (tokSpan oldToks ch.oldTokStart ch.oldTokEnd)
            (tokSpan newToks ch.newTokStart ch.newTokEnd) oldSlice newSlice⟩ ::
        buildDiffs oldS newS oldToks newToks rest

/-! ## The pipeline (source lines 154-243) -/

def getTextDiffs (wc : Char → Bool) (norm : Str → Str) (oldInput newInput : Str) :
    List TextDiff :=
  let oldText := norm oldInput
  let newText := norm newInput
  if oldText = newText then []
  else
    let oldTokens := tokenize wc norm oldText
    let newTokens := tokenize wc norm newText
    let lcs := lcsIndicesTokens oldTokens newTokens
    let changes := extractLoop lcs 0 0 oldTokens.length newTokens.length
    let merged := mergeRanges oldTokens newTokens changes
    buildDiffs oldText newText oldTokens newTokens merged

/-! ## Reference edit distance

`editDist` is the textbook recursive Levenshtein distance (unit-cost
insertion/deletion/substitution, case-sensitive), written with an auxiliary
so that the recursion is structural. -/

def editDistAux (Ea : Str → Nat) (x : Char) : Str → Nat
  | [] => Ea [] + 1
  | y :: b =>
      min (Ea b + (if x = y then 0 else 1)) (min (Ea (y :: b) + 1) (editDistAux Ea x b + 1))

def editDist : Str → Str → Nat
  | [], b => b.length
  | x :: a, b => editDistAux (editDist a) x b

@[simp] theorem editDist_nil_left (b : Str) : editDist [] b = b.length := rfl

@[simp] theorem editDist_nil_right (a : Str) : editDist a [] = a.length := by
  induction a with
  | nil => rfl
  | cons x a ih => show editDist a [] + 1 = _ ; rw [ih] ; rfl

@[simp] theorem editDist_cons_cons (x y : Char) (a b : Str) :
    editDist (x :: a) (y :: b) =
      min (editDist a b + (if x = y then 0 else 1))
        (min (editDist a (y :: b) + 1) (editDist (x :: a) b + 1)) := rfl

theorem editDist_self (a : Str) : editDist a a = 0 := by
  induction a with
  | nil => rfl
  | cons x a ih => simp [ih]

/-- The edit distance of prefixes extended by one character on each side
satisfies the table recurrence that the source's DP uses. -/
theorem editDist_snoc_snoc (x y : Char) : ∀ p q : Str,
    editDist (p ++ [x]) (q ++ [y]) =
      min (editDist p q + (if x = y then 0 else 1))
        (min (editDist p (q ++ [y]) + 1) (editDist (p ++ [x]) q + 1)) := by
  intro p
  induction p with
  | nil =>
    intro q
    induction q with
    | nil => simp
    | cons z q ihq =>
      simp only [List.cons_append, List.nil_append, editDist_cons_cons, editDist_nil_left,
        List.length_append, List.length_cons, List.length_nil] at ihq ⊢
      rw [ihq]
      split_ifs <;> omega
  | cons w p ihp =>
    intro q
    induction q with
    | nil =>
      have h1 := ihp []
      simp only [List.cons_append, List.nil_append, editDist_cons_cons, editDist_nil_left,
        editDist_nil_right, List.length_append, List.length_cons, List.length_nil] at h1 ⊢
      rw [h1]
      split_ifs <;> omega
    | cons z q ihq =>
      have h1 := ihp q
      have h2 := ihp (z :: q)
      simp only [List.cons_append, List.nil_append, editDist_cons_cons] at h1 h2 ihq ⊢
      rw [h1, h2, ihq]
      simp only [← Nat.add_min_add_right]
      refine le_antisymm ?_ ?_ <;> simp only [le_min_iff, min_le_iff] <;> omega

/-! ## The rolling rows compute prefix distances

`edRow p q rem` is the list `[editDist p (q ++ pre) | pre a prefix of rem]`,
i.e. the row of the source's DP after processing `p`, from column `|q|` on. -/

def edRow (p q : Str) : Str → List Nat
  | [] => [editDist p q]
  | y :: bs => editDist p q :: edRow p (q ++ [y]) bs

theorem edRow_head_cons (p q : Str) (rem : Str) :
    edRow p q rem = editDist p q :: (edRow p q rem).tail := by
  cases rem <;> rfl

theorem edRow_headD (p q : Str) (rem : Str) :
    (edRow p q rem).headD 0 = editDist p q := by
  cases rem <;> rfl

theorem levScan_spec (ai : Char) : ∀ (rem q p : Str),
    levScan ai rem (edRow p q rem) (editDist (p ++ [ai]) q) =
      (edRow (p ++ [ai]) q rem).tail := by
  intro rem
  induction rem with
  | nil => intro q p ; rfl
  | cons y bs ih =>
    intro q p
    show (min ((edRow p (q ++ [y]) bs).headD 0 + 1)
        (min (editDist (p ++ [ai]) q + 1)
          (editDist p q + if ai = y then 0 else 1))) ::
        levScan ai bs (edRow p (q ++ [y]) bs) _ = _
    rw [edRow_headD]
    have hc : min (editDist p (q ++ [y]) + 1)
        (min (editDist (p ++ [ai]) q + 1) (editDist p q + if ai = y then 0 else 1)) =
        editDist (p ++ [ai]) (q ++ [y]) := by
      rw [editDist_snoc_snoc]
      split_ifs <;> omega
    rw [hc, ih (q ++ [y]) p]
    rw [show edRow (p ++ [ai]) q (y :: bs) =
      editDist (p ++ [ai]) q :: edRow (p ++ [ai]) (q ++ [y]) bs from rfl, List.tail_cons]
    exact (edRow_head_cons (p ++ [ai]) (q ++ [y]) bs).symm

theorem levLoop_spec (b : Str) : ∀ (rest p : Str),
    levLoop rest b (edRow p [] b) (p.length + 1) = edRow (p ++ rest) [] b := by
  intro rest
  induction rest with
  | nil => intro p ; simp [levLoop]
  | cons c rest ih =>
    intro p
    show levLoop rest b ((p.length + 1) :: levScan c b (edRow p [] b) (p.length + 1)) _ =
      _
    have hstart : (p.length + 1) = editDist (p ++ [c]) [] := by
      rw [editDist_nil_right, List.length_append] ; rfl
    have hrow : (p.length + 1) :: levScan c b (edRow p [] b) (p.length + 1) =
        edRow (p ++ [c]) [] b := by
      rw [hstart, levScan_spec c b [] p, ← edRow_head_cons]
    rw [hrow]
    have := ih (p ++ [c])
    rw [List.length_append] at this
    simpa using this

theorem edRow_nil_left : ∀ (rem q : Str), edRow [] q rem = List.range' q.length (rem.length + 1) := by
  intro rem
  induction rem with
  | nil => intro q ; simp [edRow, List.range']
  | cons y bs ih =>
    intro q
    show q.length :: edRow [] (q ++ [y]) bs = _
    rw [ih (q ++ [y]), List.length_append]
    rw [List.range'_succ]
    rfl

theorem edRow_getD_last (p : Str) : ∀ (rem q : Str),
    (edRow p q rem).getD rem.length 0 = editDist p (q ++ rem) := by
  intro rem
  induction rem with
  | nil => intro q ; simp [edRow]
  | cons y bs ih =>
    intro q
    show (editDist p q :: edRow p (q ++ [y]) bs).getD (bs.length + 1) 0 = _
    rw [List.getD_cons_succ, ih (q ++ [y])]
    simp

/-- The source's rolling-row `levenshtein` computes the textbook edit
distance. -/
theorem levenshtein_eq_editDist (a b : Str) : levenshtein a b = editDist a b := by
  unfold levenshtein
  split_ifs with h1 h2 h3
  · rw [h1, editDist_self]
  · rw [List.length_eq_zero] at h2 ; rw [h2] ; simp
  · rw [List.length_eq_zero] at h3 ; rw [h3] ; simp
  · have hrow : List.range (b.length + 1) = edRow [] [] b := by
      rw [edRow_nil_left b []] ; simp [List.range_eq_range']
    rw [hrow]
    have := levLoop_spec b a []
    simp only [List.length_nil, List.nil_append] at this
    rw [this, edRow_getD_last a b []]
    simp

/-- The classifier exactly as the specification words it: `insert` when the
old substring is empty and the new one is not, `delete` symmetrically, then
`spell-correction` exactly when each token span holds exactly one word token
and the standard edit distance `d` of the two word values satisfies
`0 < d ≤ max 2 ⌈0.3·maxLen⌉`, else `replace`.  (`⌈3L/10⌉ = (3L+9)/10`.) -/
def claimClassify (oldTokSlice newTokSlice : List Token) (oldSlice newSlice : Str) :
    ChangeType :=
  if oldSlice = [] ∧ newSlice ≠ [] then ChangeType.insert
  else if newSlice = [] ∧ oldSlice ≠ [] then ChangeType.delete
  else
    match oldTokSlice.filter (fun t => decide (t.kind = TokKind.word)),
        newTokSlice.filter (fun t => decide (t.kind = TokKind.word)) with
    | [ow], [nw] =>
        if 0 < editDist ow.value nw.value ∧
            editDist ow.value nw.value ≤
              max 2 ((3 * max ow.value.length nw.value.length + 9) / 10) then
          ChangeType.spellCorrection
        else ChangeType.replace
    | _, _ => ChangeType.replace

/-- Claim C4: for every change region the classifier returns `insert` iff the
old substring is empty and the new one nonempty, `delete` iff the new one is
empty and the old one nonempty, otherwise `spell-correction` exactly when both
token spans hold exactly one word token and the unit-cost case-sensitive
Levenshtein distance `d` (the standard edit distance `editDist`) satisfies
`0 < d ≤ max 2 ⌈0.3·maxLen⌉`, and `replace` in all remaining cases: the
source classifier coincides with `claimClassify`, the direct rendering of
that case analysis. -/
theorem claim_C4_classifier (ots nts : List Token) (os ns : Str) :
    classifyChange ots nts os ns = claimClassify ots nts os ns := by
  unfold classifyChange claimClassify
  simp only [List.length_eq_zero, List.length_pos]
  rcases h1 : ots.filter (fun t => decide (t.kind = TokKind.word)) with _ | ⟨ow, _ | ⟨ow2, l1⟩⟩ <;>
    rcases h2 : nts.filter (fun t => decide (t.kind = TokKind.word)) with _ | ⟨nw, _ | ⟨nw2, l2⟩⟩ <;>
    simp [levenshtein_eq_editDist]

/-! ## LCS: equations and correctness -/

@[simp] theorem lcsDP_nil_left (b : List Str) : lcsDP [] b = 0 := rfl

@[simp] theorem lcsDP_nil_right (a : List Str) : lcsDP a [] = 0 := by
  cases a <;> rfl

theorem lcsDP_cons_cons (x y : Str) (a b : List Str) :
    lcsDP (x :: a) (y :: b) =
      if x = y then lcsDP a b + 1 else max (lcsDP a (y :: b)) (lcsDP (x :: a) b) := rfl

@[simp] theorem lcsPairs_nil_left (b : List Str) (i j : Nat) : lcsPairs [] b i j = [] := rfl

@[simp] theorem lcsPairs_nil_right (a : List Str) (i j : Nat) : lcsPairs a [] i j = [] := by
  cases a <;> rfl

theorem lcsPairs_cons_cons (x y : Str) (a b : List Str) (i j : Nat) :
    lcsPairs (x :: a) (y :: b) i j =
      if x = y then (i, j) :: lcsPairs a b (i + 1) (j + 1)
      else if lcsDP a (y :: b) ≥ lcsDP (x :: a) b then lcsPairs a (y :: b) (i + 1) j
      else lcsPairs (x :: a) b i (j + 1) := rfl

/-- Indices of the reconstructed pairs stay within the index windows of the
two suffixes. -/
theorem lcsPairs_bounds : ∀ (a b : List Str) (i j : Nat),
    ∀ pq ∈ lcsPairs a b i j,
      i ≤ pq.1 ∧ pq.1 < i + a.length ∧ j ≤ pq.2 ∧ pq.2 < j + b.length := by
  intro a
  induction a with
  | nil => intro b i j pq h ; simp at h
  | cons x a iha =>
    intro b
    induction b with
    | nil => intro i j pq h ; simp at h
    | cons y b ihb =>
      intro i j pq h
      rw [lcsPairs_cons_cons] at h
      by_cases hxy : x = y
      · rw [if_pos hxy] at h
        rcases List.mem_cons.mp h with h | h
        · subst h ; simp
        · have := iha b (i + 1) (j + 1) pq h
          simp only [List.length_cons]
          omega
      · rw [if_neg hxy] at h
        by_cases hge : lcsDP a (y :: b) ≥ lcsDP (x :: a) b
        · rw [if_pos hge] at h
          have := iha (y :: b) (i + 1) j pq h
          simp only [List.length_cons] at this ⊢
          omega
        · rw [if_neg hge] at h
          have := ihb i (j + 1) pq h
          simp only [List.length_cons] at this ⊢
          omega

/-- The reconstructed pairs are strictly increasing in both components. -/
theorem lcsPairs_pairwise : ∀ (a b : List Str) (i j : Nat),
    List.Pairwise (fun u v => u.1 < v.1 ∧ u.2 < v.2) (lcsPairs a b i j) := by
  intro a
  induction a with
  | nil => intro b i j ; simp
  | cons x a iha =>
    intro b
    induction b with
    | nil => intro i j ; simp
    | cons y b ihb =>
      intro i j
      rw [lcsPairs_cons_cons]
      by_cases hxy : x = y
      · rw [if_pos hxy]
        refine List.pairwise_cons.mpr ⟨?_, iha b (i + 1) (j + 1)⟩
        intro pq hpq
        have := lcsPairs_bounds a b (i + 1) (j + 1) pq hpq
        constructor <;> omega
      · rw [if_neg hxy]
        by_cases hge : lcsDP a (y :: b) ≥ lcsDP (x :: a) b
        · rw [if_pos hge] ; exact iha (y :: b) (i + 1) j
        · rw [if_neg hge] ; exact ihb i (j + 1)

/-- At every reconstructed pair the two value sequences agree. -/
theorem lcsPairs_values : ∀ (a b : List Str) (i j : Nat),
    ∀ pq ∈ lcsPairs a b i j,
      ∃ v, a[pq.1 - i]? = some v ∧ b[pq.2 - j]? = some v := by
  intro a
  induction a with
  | nil => intro b i j pq h ; simp at h
  | cons x a iha =>
    intro b
    induction b with
    | nil => intro i j pq h ; simp at h
    | cons y b ihb =>
      intro i j pq h
      rw [lcsPairs_cons_cons] at h
      by_cases hxy : x = y
      · rw [if_pos hxy] at h
        rcases List.mem_cons.mp h with h | h
        · subst h
          exact ⟨x, by simp, by simp [hxy]⟩
        · obtain ⟨v, hv1, hv2⟩ := iha b (i + 1) (j + 1) pq h
          have hb := lcsPairs_bounds a b (i + 1) (j + 1) pq h
          refine ⟨v, ?_, ?_⟩
          · rw [show pq.1 - i = (pq.1 - (i + 1)) + 1 by omega, List.getElem?_cons_succ]
            exact hv1
          · rw [show pq.2 - j = (pq.2 - (j + 1)) + 1 by omega, List.getElem?_cons_succ]
            exact hv2
      · rw [if_neg hxy] at h
        by_cases hge : lcsDP a (y :: b) ≥ lcsDP (x :: a) b
        · rw [if_pos hge] at h
          obtain ⟨v, hv1, hv2⟩ := iha (y :: b) (i + 1) j pq h
          have hb := lcsPairs_bounds a (y :: b) (i + 1) j pq h
          refine ⟨v, ?_, hv2⟩
          rw [show pq.1 - i = (pq.1 - (i + 1)) + 1 by omega, List.getElem?_cons_succ]
          exact hv1
        · rw [if_neg hge] at h
          obtain ⟨v, hv1, hv2⟩ := ihb i (j + 1) pq h
          have hb := lcsPairs_bounds (x :: a) b i (j + 1) pq h
          refine ⟨v, hv1, ?_⟩
          rw [show pq.2 - j = (pq.2 - (j + 1)) + 1 by omega, List.getElem?_cons_succ]
          exact hv2

/-- The reconstruction emits exactly `dp[i][j]` pairs. -/
theorem lcsPairs_length : ∀ (a b : List Str) (i j : Nat),
    (lcsPairs a b i j).length = lcsDP a b := by
  intro a
  induction a with
  | nil => intro b i j ; simp
  | cons x a iha =>
    intro b
    induction b with
    | nil => intro i j ; simp
    | cons y b ihb =>
      intro i j
      rw [lcsPairs_cons_cons, lcsDP_cons_cons]
      by_cases hxy : x = y
      · rw [if_pos hxy, if_pos hxy]
        simp [iha b (i + 1) (j + 1)]
      · rw [if_neg hxy, if_neg hxy]
        by_cases hge : lcsDP a (y :: b) ≥ lcsDP (x :: a) b
        · rw [if_pos hge, iha (y :: b) (i + 1) j, Nat.max_eq_left hge]
        · rw [if_neg hge, ihb i (j + 1), Nat.max_eq_right (Nat.le_of_not_le hge)]

/-- The emitted pairs realize a common subsequence of that length. -/
theorem lcsPairs_exists_subseq : ∀ (a b : List Str) (i j : Nat),
    ∃ s : List Str, s.Sublist a ∧ s.Sublist b ∧ s.length = (lcsPairs a b i j).length := by
  intro a
  induction a with
  | nil => intro b i j ; exact ⟨[], by simp, by simp, by simp⟩
  | cons x a iha =>
    intro b
    induction b with
    | nil => intro i j ; exact ⟨[], by simp, by simp, by simp⟩
    | cons y b ihb =>
      intro i j
      rw [lcsPairs_cons_cons]
      by_cases hxy : x = y
      · rw [if_pos hxy]
        obtain ⟨s, hs1, hs2, hs3⟩ := iha b (i + 1) (j + 1)
        exact ⟨x :: s, List.Sublist.cons₂ x hs1, hxy ▸ List.Sublist.cons₂ x hs2,
          by simp [hs3]⟩
      · rw [if_neg hxy]
        by_cases hge : lcsDP a (y :: b) ≥ lcsDP (x :: a) b
        · rw [if_pos hge]
          obtain ⟨s, hs1, hs2, hs3⟩ := iha (y :: b) (i + 1) j
          exact ⟨s, List.Sublist.cons x hs1, hs2, hs3⟩
        · rw [if_neg hge]
          obtain ⟨s, hs1, hs2, hs3⟩ := ihb i (j + 1)
          exact ⟨s, hs1, List.Sublist.cons y hs2, hs3⟩

/-- `dp[i][j]` is an upper bound for every common subsequence: together with
the previous two lemmas, the emitted pair count is the LCS length. -/
theorem length_le_lcsDP : ∀ (a b s : List Str), s.Sublist a → s.Sublist b →
    s.length ≤ lcsDP a b := by
  intro a
  induction a with
  | nil =>
    intro b s hsa hsb
    rw [List.sublist_nil] at hsa
    simp [hsa]
  | cons x a iha =>
    intro b
    induction b with
    | nil =>
      intro s hsa hsb
      rw [List.sublist_nil] at hsb
      simp [hsb]
    | cons y b ihb =>
      intro s hsa hsb
      rw [lcsDP_cons_cons]
      by_cases hxy : x = y
      · rw [if_pos hxy]
        subst hxy
        cases hsa with
        | cons _ hsa' =>
          cases hsb with
          | cons _ hsb' => exact le_trans (iha b s hsa' hsb') (Nat.le_succ _)
          | cons₂ _ hsb' =>
            rename_i s₁
            have hs1a : s₁.Sublist a := (List.sublist_cons_self x s₁).trans hsa'
            have := iha b s₁ hs1a hsb'
            simp only [List.length_cons]
            omega
        | cons₂ _ hsa' =>
          rename_i s₁
          cases hsb with
          | cons _ hsb' =>
            have hs1b : s₁.Sublist b := (List.sublist_cons_self x s₁).trans hsb'
            have := iha b s₁ hsa' hs1b
            simp only [List.length_cons]
            omega
          | cons₂ _ hsb' =>
            have := iha b s₁ hsa' hsb'
            simp only [List.length_cons]
            omega
      · rw [if_neg hxy]
        cases hsa with
        | cons _ hsa' => exact le_trans (iha (y :: b) s hsa' hsb) (Nat.le_max_left _ _)
        | cons₂ _ hsa' =>
          cases hsb with
          | cons _ hsb' =>
            exact le_trans (ihb _ (List.Sublist.cons₂ x hsa') hsb') (Nat.le_max_right _ _)
          | cons₂ _ hsb' => exact absurd rfl hxy

/-- Claim C3: `lcsIndicesTokens` returns pairs strictly increasing in both
components, with equal token values at every returned pair, and as many pairs
as the length of a longest common subsequence of the two value sequences
(which the pairs themselves realize).  The emitting policy is `lcsPairs`
itself, the source's forward reconstruction with the `dp[i+1][j] >= dp[i][j+1]`
tie-break. -/
theorem claim_C3_lcs (a b : List Token) :
    List.Pairwise (fun u v => u.1 < v.1 ∧ u.2 < v.2) (lcsIndicesTokens a b) ∧
    (∀ pq ∈ lcsIndicesTokens a b,
      ∃ ta tb, a[pq.1]? = some ta ∧ b[pq.2]? = some tb ∧ ta.value = tb.value) ∧
    (∃ s : List Str, s.Sublist (a.map Token.value) ∧ s.Sublist (b.map Token.value) ∧
      s.length = (lcsIndicesTokens a b).length) ∧
    (∀ s : List Str, s.Sublist (a.map Token.value) → s.Sublist (b.map Token.value) →
      s.length ≤ (lcsIndicesTokens a b).length) := by
  refine ⟨lcsPairs_pairwise _ _ 0 0, ?_, lcsPairs_exists_subseq _ _ 0 0, ?_⟩
  · intro pq hpq
    obtain ⟨v, hv1, hv2⟩ := lcsPairs_values _ _ 0 0 pq hpq
    simp only [Nat.sub_zero, List.getElem?_map] at hv1 hv2
    obtain ⟨ta, hta, hva⟩ := Option.map_eq_some'.mp hv1
    obtain ⟨tb, htb, hvb⟩ := Option.map_eq_some'.mp hv2
    exact ⟨ta, tb, hta, htb, by rw [hva, hvb]⟩
  · intro s hs1 hs2
    rw [lcsIndicesTokens, lcsPairs_length]
    exact length_le_lcsDP _ _ s hs1 hs2

/-! ## Tiling and run invariants of the tokenizer -/

/-- `Tiled pos ts rem`: the tokens `ts` tile the string `rem` exactly,
starting at offset `pos`: each token starts where the previous one ended,
carries its own span as `value`, and the last token ends at the end of
`rem`. -/
def Tiled : Nat → List Token → Str → Prop
  | _, [], rem => rem = []
  | pos, t :: ts, rem =>
      t.start = pos ∧ t.endIdx = pos + t.value.length ∧
      rem.take t.value.length = t.value ∧ Tiled t.endIdx ts (rem.drop t.value.length)

@[simp] theorem tiled_nil (pos : Nat) (rem : Str) : Tiled pos [] rem ↔ rem = [] := Iff.rfl

@[simp] theorem tiled_cons (pos : Nat) (t : Token) (ts : List Token) (rem : Str) :
    Tiled pos (t :: ts) rem ↔
      t.start = pos ∧ t.endIdx = pos + t.value.length ∧
      rem.take t.value.length = t.value ∧ Tiled t.endIdx ts (rem.drop t.value.length) :=
  Iff.rfl

/-- All word characters make `word` tokens and the rest `sep` tokens, and no
token is empty. -/
def ValuesPure (wc : Char → Bool) (ts : List Token) : Prop :=
  ∀ t ∈ ts, t.value ≠ [] ∧ ∀ c ∈ t.value, kindOf (wc c) = t.kind

/-- Consecutive tokens have different kinds (with `ValuesPure` this makes
every token a maximal run of its class). -/
def Alternating (ts : List Token) : Prop :=
  List.Chain' (fun t1 t2 => t1.kind ≠ t2.kind) ts

def sumLens (ts : List Token) : Nat := (ts.map (fun t => t.value.length)).sum

theorem tiled_flatten : ∀ (ts : List Token) (pos : Nat) (rem : Str),
    Tiled pos ts rem → rem = (ts.map Token.value).flatten := by
  intro ts
  induction ts with
  | nil => intro pos rem h ; simpa using h
  | cons t ts ih =>
    intro pos rem h
    obtain ⟨h1, h2, h3, h4⟩ := h
    calc rem = rem.take t.value.length ++ rem.drop t.value.length :=
          (List.take_append_drop _ _).symm
    _ = t.value ++ (ts.map Token.value).flatten := by rw [h3, ← ih _ _ h4]
    _ = ((t :: ts).map Token.value).flatten := by simp

theorem tiled_get : ∀ (ts : List Token) (pos : Nat) (rem : Str), Tiled pos ts rem →
    ∀ (k : Nat) (h : k < ts.length),
      (ts.get ⟨k, h⟩).start = pos + sumLens (ts.take k) ∧
      (ts.get ⟨k, h⟩).endIdx = pos + sumLens (ts.take (k + 1)) := by
  intro ts
  induction ts with
  | nil => intro pos rem _ k h ; simp at h
  | cons t ts ih =>
    intro pos rem htl k h
    obtain ⟨h1, h2, h3, h4⟩ := htl
    cases k with
    | zero =>
      constructor
      · simpa [sumLens] using h1
      · simpa [sumLens] using h2
    | succ k =>
      have hk : k < ts.length := Nat.lt_of_succ_lt_succ h
      have := ih t.endIdx _ h4 k hk
      constructor
      · show (ts.get ⟨k, hk⟩).start = _
        rw [this.1, h2]
        simp only [sumLens, List.take_succ_cons, List.map_cons, List.sum_cons]
        omega
      · show (ts.get ⟨k, hk⟩).endIdx = _
        rw [this.2, h2]
        simp only [sumLens, List.take_succ_cons, List.map_cons, List.sum_cons]
        omega

theorem sumLens_take_mono (ts : List Token) {p q : Nat} (h : p ≤ q) :
    sumLens (ts.take p) ≤ sumLens (ts.take q) := by
  have h1 : List.take p (List.take q ts) = List.take p ts := by
    rw [List.take_take, min_eq_left h]
  have hdec : ts.take q = ts.take p ++ (ts.take q).drop p := by
    rw [← h1] ; exact (List.take_append_drop _ _).symm
  rw [hdec]
  simp only [sumLens, List.map_append, List.sum_append]
  omega

theorem sumLens_take_strict (ts : List Token) (hv : ∀ t ∈ ts, t.value ≠ [])
    {p q : Nat} (hpq : p < q) (hq : q ≤ ts.length) :
    sumLens (ts.take p) < sumLens (ts.take q) := by
  have h1 : List.take p (List.take q ts) = List.take p ts := by
    rw [List.take_take, min_eq_left (Nat.le_of_lt hpq)]
  have hdec : ts.take q = ts.take p ++ (ts.take q).drop p := by
    rw [← h1] ; exact (List.take_append_drop _ _).symm
  have hlen : ((ts.take q).drop p).length = q - p := by
    simp [List.length_take, List.length_drop]
    omega
  rcases hrest : (ts.take q).drop p with _ | ⟨t0, rest⟩
  · rw [hrest] at hlen ; simp at hlen ; omega
  · have ht0 : t0 ∈ ts := by
      have : t0 ∈ (ts.take q).drop p := by rw [hrest] ; exact List.mem_cons_self _ _
      exact List.mem_of_mem_take (List.mem_of_mem_drop this)
    have hne := hv t0 ht0
    have hpos : 0 < t0.value.length := List.length_pos.mpr hne
    rw [hdec, hrest]
    simp only [sumLens, List.map_append, List.sum_append, List.map_cons, List.sum_cons]
    omega

theorem strSlice_append (A B C : Str) :
    strSlice (A ++ B ++ C) A.length (A.length + B.length) = B := by
  unfold strSlice
  have h1 : (A ++ B ++ C).take (A.length + B.length) = A ++ B :=
    List.take_left' (by simp)
  rw [h1, List.drop_left]

theorem sumLens_eq_length_flatten (ts : List Token) :
    ((ts.map Token.value).flatten).length = sumLens ts := by
  rw [List.length_flatten, List.map_map]
  rfl

theorem tiled_slice (ts : List Token) (s : Str) (h : Tiled 0 ts s) (p q : Nat)
    (hpq : p ≤ q) (hq : q ≤ ts.length) :
    strSlice s (sumLens (ts.take p)) (sumLens (ts.take q)) =
      ((tokSpan ts p q).map Token.value).flatten := by
  have h1 : List.take p (List.take q ts) = List.take p ts := by
    rw [List.take_take, min_eq_left hpq]
  have htq : ts.take q = ts.take p ++ tokSpan ts p q := by
    show ts.take q = ts.take p ++ (ts.take q).drop p
    rw [← h1] ; exact (List.take_append_drop _ _).symm
  have hts : ts = ts.take p ++ tokSpan ts p q ++ ts.drop q := by
    conv_lhs => rw [← List.take_append_drop q ts]
    rw [htq]
  have hs := tiled_flatten ts 0 s h
  rw [hts] at hs
  simp only [List.map_append, List.flatten_append] at hs
  have hA : (((ts.take p).map Token.value).flatten).length = sumLens (ts.take p) :=
    sumLens_eq_length_flatten _
  have hB : (((tokSpan ts p q).map Token.value).flatten).length =
      sumLens (tokSpan ts p q) := sumLens_eq_length_flatten _
  have hsum : sumLens (ts.take p) + sumLens (tokSpan ts p q) = sumLens (ts.take q) := by
    rw [htq]
    simp [sumLens]
  rw [hs, ← hsum, ← hA, ← hB]
  exact strSlice_append _ _ _

/-! ## The fallback tokenizer satisfies all run invariants -/

@[simp] theorem tkLoop_nil (wc : Char → Bool) (k : Bool) (acc : Str) (st pos : Nat) :
    tkLoop wc [] k acc st pos = [⟨kindOf k, acc, st, pos⟩] := rfl

theorem tkLoop_cons (wc : Char → Bool) (c : Char) (rem : Str) (k : Bool) (acc : Str)
    (st pos : Nat) :
    tkLoop wc (c :: rem) k acc st pos =
      if wc c = k then tkLoop wc rem k (acc ++ [c]) st (pos + 1)
      else ⟨kindOf k, acc, st, pos⟩ :: tkLoop wc rem (wc c) [c] pos (pos + 1) := rfl

theorem tkLoop_tiled (wc : Char → Bool) : ∀ (rem : Str) (k : Bool) (acc : Str) (st : Nat),
    (∀ c ∈ acc, wc c = k) →
    Tiled st (tkLoop wc rem k acc st (st + acc.length)) (acc ++ rem) := by
  intro rem
  induction rem with
  | nil =>
    intro k acc st _
    refine ⟨rfl, by simp, by simp, ?_⟩
    simp
  | cons c rem ih =>
    intro k acc st hacc
    rw [tkLoop_cons]
    by_cases hc : wc c = k
    · rw [if_pos hc]
      have hlen : st + acc.length + 1 = st + (acc ++ [c]).length := by simp ; omega
      have hpure : ∀ c' ∈ acc ++ [c], wc c' = k := by
        intro c' hc'
        rcases List.mem_append.mp hc' with h | h
        · exact hacc c' h
        · rw [List.mem_singleton.mp h] ; exact hc
      have := ih k (acc ++ [c]) st hpure
      rw [← hlen] at this
      simpa [List.append_assoc] using this
    · rw [if_neg hc]
      refine ⟨rfl, rfl, ?_, ?_⟩
      · exact List.take_left _ _
      · rw [List.drop_left]
        have := ih (wc c) [c] (st + acc.length) (by simp)
        simpa using this

theorem tkLoop_head_kind (wc : Char → Bool) : ∀ (rem : Str) (k : Bool) (acc : Str)
    (st pos : Nat), ∃ hd tl, tkLoop wc rem k acc st pos = hd :: tl ∧ hd.kind = kindOf k := by
  intro rem
  induction rem with
  | nil => intro k acc st pos ; exact ⟨_, _, rfl, rfl⟩
  | cons c rem ih =>
    intro k acc st pos
    rw [tkLoop_cons]
    by_cases hc : wc c = k
    · rw [if_pos hc] ; exact ih k (acc ++ [c]) st (pos + 1)
    · rw [if_neg hc] ; exact ⟨_, _, rfl, rfl⟩

theorem tkLoop_alternating (wc : Char → Bool) : ∀ (rem : Str) (k : Bool) (acc : Str)
    (st pos : Nat), Alternating (tkLoop wc rem k acc st pos) := by
  intro rem
  induction rem with
  | nil => intro k acc st pos ; simp [Alternating]
  | cons c rem ih =>
    intro k acc st pos
    rw [Alternating, tkLoop_cons]
    by_cases hc : wc c = k
    · rw [if_pos hc] ; exact ih k (acc ++ [c]) st (pos + 1)
    · rw [if_neg hc]
      rw [List.chain'_cons']
      refine ⟨?_, ih (wc c) [c] pos (pos + 1)⟩
      intro y hy
      obtain ⟨hd, tl, heq, hkind⟩ := tkLoop_head_kind wc rem (wc c) [c] pos (pos + 1)
      rw [heq] at hy
      simp only [List.head?_cons, Option.mem_def, Option.some.injEq] at hy
      rw [hy] at hkind
      show (⟨kindOf k, acc, st, pos⟩ : Token).kind ≠ y.kind
      rw [hkind]
      simp only [kindOf]
      intro hcontra
      apply hc
      by_cases hk : k <;> by_cases hwcc : wc c <;> simp [hk, hwcc] at hcontra ⊢

theorem tkLoop_pure (wc : Char → Bool) : ∀ (rem : Str) (k : Bool) (acc : Str)
    (st pos : Nat), acc ≠ [] → (∀ c ∈ acc, wc c = k) →
    ValuesPure wc (tkLoop wc rem k acc st pos) := by
  intro rem
  induction rem with
  | nil =>
    intro k acc st pos hne hacc
    intro t ht
    rw [tkLoop_nil, List.mem_singleton] at ht
    subst ht
    exact ⟨hne, fun c hc => by rw [hacc c hc]⟩
  | cons c rem ih =>
    intro k acc st pos hne hacc
    rw [tkLoop_cons]
    by_cases hc : wc c = k
    · rw [if_pos hc]
      refine ih k (acc ++ [c]) st (pos + 1) (by simp) ?_
      intro c' hc'
      rcases List.mem_append.mp hc' with h | h
      · exact hacc c' h
      · rw [List.mem_singleton.mp h] ; exact hc
    · rw [if_neg hc]
      intro t ht
      rcases List.mem_cons.mp ht with h | h
      · subst h
        exact ⟨hne, fun c' hc' => by rw [hacc c' hc']⟩
      · exact ih (wc c) [c] pos (pos + 1) (by simp) (by simp) t h

theorem tokenizeFallback_tiled (wc : Char → Bool) (s : Str) :
    Tiled 0 (tokenizeFallback wc s) s := by
  cases s with
  | nil => simp [tokenizeFallback]
  | cons c rem =>
    have := tkLoop_tiled wc rem (wc c) [c] 0 (by simp)
    simpa [tokenizeFallback] using this

theorem tokenizeFallback_pure (wc : Char → Bool) (s : Str) :
    ValuesPure wc (tokenizeFallback wc s) := by
  cases s with
  | nil => intro t ht ; simp [tokenizeFallback] at ht
  | cons c rem => exact tkLoop_pure wc rem (wc c) [c] 0 1 (by simp) (by simp)

theorem tokenizeFallback_alternating (wc : Char → Bool) (s : Str) :
    Alternating (tokenizeFallback wc s) := by
  cases s with
  | nil => simp [tokenizeFallback, Alternating]
  | cons c rem => exact tkLoop_alternating wc rem (wc c) [c] 0 1

/-! ## The segmenter path also tiles -/

theorem strSlice_length (s : Str) (a b : Nat) (hb : b ≤ s.length) (hab : a ≤ b) :
    (strSlice s a b).length = b - a := by
  simp [strSlice, List.length_take]
  omega

theorem take_drop_slice (s : Str) (a b : Nat) :
    (s.drop a).take (b - a) = strSlice s a b ∨ b < a := by
  by_cases h : a ≤ b
  · left
    rw [List.take_drop]
    unfold strSlice
    rw [show a + (b - a) = b by omega]
  · right ; omega

theorem segTokens_tiled (wc : Char → Bool) (s : Str) : ∀ (segs : List Segment) (cursor : Nat),
    segsWF s segs cursor = true → cursor ≤ s.length →
    Tiled cursor (segTokens wc s segs cursor) (s.drop cursor) := by
  intro segs
  induction segs with
  | nil =>
    intro cursor _ hc
    by_cases h : cursor < s.length
    · simp only [segTokens, if_pos h]
      have hlen : (strSlice s cursor s.length).length = s.length - cursor :=
        strSlice_length s cursor s.length (le_refl _) hc
      refine ⟨rfl, ?_, ?_, ?_⟩
      · show s.length = cursor + (strSlice s cursor s.length).length
        rw [hlen] ; omega
      · show (s.drop cursor).take (strSlice s cursor s.length).length =
          strSlice s cursor s.length
        rw [hlen]
        rcases take_drop_slice s cursor s.length with heq | hlt
        · exact heq
        · omega
      · show Tiled s.length [] ((s.drop cursor).drop (strSlice s cursor s.length).length)
        rw [hlen, List.drop_drop, tiled_nil, List.drop_eq_nil_iff]
        omega
    · simp only [segTokens, if_neg h, tiled_nil, List.drop_eq_nil_iff]
      omega
  | cons seg rest ih =>
    intro cursor hwf hc
    simp only [segsWF, Bool.and_eq_true, decide_eq_true_eq] at hwf
    obtain ⟨⟨⟨⟨h1, h2⟩, h3⟩, h4⟩, h5⟩ := hwf
    have hidx : seg.index ≤ s.length := by omega
    have hseg : Tiled seg.index
        (⟨kindOf (seg.isWordLike.getD (seg.value.any wc)), seg.value, seg.index,
          seg.index + seg.value.length⟩ ::
          segTokens wc s rest (seg.index + seg.value.length)) (s.drop seg.index) := by
      refine ⟨rfl, rfl, ?_, ?_⟩
      · show (s.drop seg.index).take seg.value.length = seg.value
        rcases take_drop_slice s seg.index (seg.index + seg.value.length) with heq | hlt
        · rw [show seg.index + seg.value.length - seg.index = seg.value.length by omega] at heq
          rw [heq, ← h4]
        · omega
      · show Tiled (seg.index + seg.value.length) _
          ((s.drop seg.index).drop seg.value.length)
        rw [List.drop_drop]
        exact ih (seg.index + seg.value.length) h5 h3
    by_cases hgap : cursor < seg.index
    · simp only [segTokens, if_pos hgap, List.cons_append, List.nil_append]
      have hlen : (strSlice s cursor seg.index).length = seg.index - cursor :=
        strSlice_length s cursor seg.index hidx (Nat.le_of_lt hgap)
      refine ⟨rfl, ?_, ?_, ?_⟩
      · show seg.index = cursor + (strSlice s cursor seg.index).length
        rw [hlen] ; omega
      · show (s.drop cursor).take (strSlice s cursor seg.index).length =
          strSlice s cursor seg.index
        rw [hlen]
        rcases take_drop_slice s cursor seg.index with heq | hlt
        · exact heq
        · omega
      · show Tiled seg.index _ ((s.drop cursor).drop (strSlice s cursor seg.index).length)
        rw [hlen, List.drop_drop, show cursor + (seg.index - cursor) = seg.index by omega]
        exact hseg
    · have hcur : cursor = seg.index := by omega
      simp only [segTokens, if_neg hgap, List.nil_append]
      rw [hcur]
      exact hseg

/-- On ASCII text the Unicode class `[\p{L}\p{N}\p{M}]` contains exactly the
alphanumeric characters, so this classifier instance is used for the
concrete ASCII examples in this file. -/
def wcAscii (c : Char) : Bool := c.isAlphanum

/-- Claim C2 (amended): the tokenizer's output tiles the normalized string
exactly on both paths — the first token starts at 0, consecutive tokens are
contiguous, each value is the corresponding substring, the last token ends
at the string length (`Tiled 0 · ·`); for the locale-aware path this holds
for every well-formed segmentation.  On the fallback path each token is
additionally a maximal run of one class: values are nonempty and class-pure
(`ValuesPure`) and consecutive tokens alternate class (`Alternating`).
(The original claim asserts the one-class/maximality property for the
locale-aware path as well; that is refuted by
`claim_C2_tokenizer_counterexample`.) -/
theorem claim_C2_tokenizer (wc : Char → Bool) (norm : Str → Str) (text : Str) :
    (Tiled 0 (tokenize wc norm text) (norm text) ∧
      ValuesPure wc (tokenize wc norm text) ∧ Alternating (tokenize wc norm text)) ∧
    (∀ (s : Str) (segs : List Segment), segsWF s segs 0 = true →
      Tiled 0 (tokenizeSeg wc s segs) s) := by
  constructor
  · exact ⟨tokenizeFallback_tiled wc (norm text), tokenizeFallback_pure wc (norm text),
      tokenizeFallback_alternating wc (norm text)⟩
  · intro s segs hwf
    have := segTokens_tiled wc s segs 0 hwf (Nat.zero_le _)
    simpa [tokenizeSeg] using this

theorem claim_C2_tokenizer_witness :
    segsWF ("a b".toList) [⟨['a'], 0, some true⟩] 0 = true ∧
    Tiled 0 (tokenizeSeg wcAscii ("a b".toList) [⟨['a'], 0, some true⟩]) ("a b".toList) := by
  refine ⟨by decide, ?_⟩
  exact (claim_C2_tokenizer wcAscii id ("a b".toList)).2 _ _ (by decide)

/-- Claim C2, counterexample to the one-class property on the locale-aware
path: a well-formed word-like segment may mix character classes (as
`Intl.Segmenter` produces for decimals such as `"3.5"`), so the resulting
word token is not a run of word characters. -/
theorem claim_C2_tokenizer_counterexample :
    segsWF ("3.5".toList) [⟨['3', '.', '5'], 0, some true⟩] 0 = true ∧
    ¬ ValuesPure wcAscii
        (tokenizeSeg wcAscii ("3.5".toList) [⟨['3', '.', '5'], 0, some true⟩]) := by
  constructor
  · decide
  · unfold ValuesPure
    decide

/-! ## Range extraction: bounds, ordering, head divergence -/

theorem extractLoop_nil (pO pN n m : Nat) :
    extractLoop [] pO pN n m = if n > pO ∨ m > pN then [⟨pO, n, pN, m⟩] else [] := rfl

theorem extractLoop_cons (i j : Nat) (rest : List (Nat × Nat)) (pO pN n m : Nat) :
    extractLoop ((i, j) :: rest) pO pN n m =
      (if i > pO ∨ j > pN then [⟨pO, i, pN, j⟩] else []) ++
      extractLoop rest (i + 1) (j + 1) n m := rfl

/-- Every extracted range sits between the running pointers and the ends and
has at least one nonempty span. -/
theorem extractLoop_bounds : ∀ (P : List (Nat × Nat)) (pO pN n m : Nat),
    (∀ pq ∈ P, pO ≤ pq.1 ∧ pq.1 < n ∧ pN ≤ pq.2 ∧ pq.2 < m) →
    List.Pairwise (fun u v => u.1 < v.1 ∧ u.2 < v.2) P →
    pO ≤ n → pN ≤ m →
    ∀ r ∈ extractLoop P pO pN n m,
      pO ≤ r.oldTokStart ∧ r.oldTokStart ≤ r.oldTokEnd ∧ r.oldTokEnd ≤ n ∧
      pN ≤ r.newTokStart ∧ r.newTokStart ≤ r.newTokEnd ∧ r.newTokEnd ≤ m ∧
      (r.oldTokStart < r.oldTokEnd ∨ r.newTokStart < r.newTokEnd) := by
  intro P
  induction P with
  | nil =>
    intro pO pN n m _ _ hO hN r hr
    rw [extractLoop_nil] at hr
    split_ifs at hr with hcond
    · rw [List.mem_singleton] at hr
      subst hr
      exact ⟨le_refl _, hO, le_refl _, le_refl _, hN, le_refl _, hcond⟩
    · simp at hr
  | cons pq rest ih =>
    intro pO pN n m hmem hpw hO hN r hr
    obtain ⟨i, j⟩ := pq
    rw [extractLoop_cons] at hr
    have hij := hmem (i, j) (List.mem_cons_self _ _)
    rcases List.mem_append.mp hr with hr | hr
    · split_ifs at hr with hcond
      · rw [List.mem_singleton] at hr
        subst hr
        exact ⟨le_refl _, hij.1, le_of_lt hij.2.1, le_refl _, hij.2.2.1,
          le_of_lt hij.2.2.2, hcond⟩
      · simp at hr
    · have hmem' : ∀ pq' ∈ rest, i + 1 ≤ pq'.1 ∧ pq'.1 < n ∧ j + 1 ≤ pq'.2 ∧ pq'.2 < m := by
        intro pq' hpq'
        have h1 := hmem pq' (List.mem_cons_of_mem _ hpq')
        have h2 := (List.pairwise_cons.mp hpw).1 pq' hpq'
        exact ⟨by omega, h1.2.1, by omega, h1.2.2.2⟩
      have hres := ih (i + 1) (j + 1) n m hmem' (List.pairwise_cons.mp hpw).2
        (by omega) (by omega) r hr
      exact ⟨by omega, hres.2.1, hres.2.2.1, by omega, hres.2.2.2.2.1,
        hres.2.2.2.2.2.1, hres.2.2.2.2.2.2⟩

/-- Consecutive extracted ranges are separated by at least the anchor pair:
both spans advance strictly. -/
theorem extractLoop_chain : ∀ (P : List (Nat × Nat)) (pO pN n m : Nat),
    (∀ pq ∈ P, pO ≤ pq.1 ∧ pq.1 < n ∧ pN ≤ pq.2 ∧ pq.2 < m) →
    List.Pairwise (fun u v => u.1 < v.1 ∧ u.2 < v.2) P →
    pO ≤ n → pN ≤ m →
    List.Chain' (fun r r' => r.oldTokEnd < r'.oldTokStart ∧ r.newTokEnd < r'.newTokStart)
      (extractLoop P pO pN n m) := by
  intro P
  induction P with
  | nil =>
    intro pO pN n m _ _ _ _
    rw [extractLoop_nil]
    split_ifs <;> simp
  | cons pq rest ih =>
    intro pO pN n m hmem hpw hO hN
    obtain ⟨i, j⟩ := pq
    rw [extractLoop_cons]
    have hij := hmem (i, j) (List.mem_cons_self _ _)
    have hmem' : ∀ pq' ∈ rest, i + 1 ≤ pq'.1 ∧ pq'.1 < n ∧ j + 1 ≤ pq'.2 ∧ pq'.2 < m := by
      intro pq' hpq'
      have h1 := hmem pq' (List.mem_cons_of_mem _ hpq')
      have h2 := (List.pairwise_cons.mp hpw).1 pq' hpq'
      exact ⟨by omega, h1.2.1, by omega, h1.2.2.2⟩
    have hchain := ih (i + 1) (j + 1) n m hmem' (List.pairwise_cons.mp hpw).2
      (by omega) (by omega)
    split_ifs with hcond
    · rw [List.singleton_append, List.chain'_cons']
      refine ⟨?_, hchain⟩
      intro r' hr'
      have := extractLoop_bounds rest (i + 1) (j + 1) n m hmem'
        (List.pairwise_cons.mp hpw).2 (by omega) (by omega) r'
        (List.mem_of_mem_head? hr')
      exact ⟨show i < r'.oldTokStart by omega, show j < r'.newTokStart by omega⟩
    · rw [List.nil_append]
      exact hchain

/-- Head divergence: every extracted change range starts at a position where
the two value sequences differ, whenever both start positions are in range.
(The reconstruction emits a pair at the current pointers whenever the values
there match, so a range can only open on a mismatch.) -/
theorem extract_head_ne : ∀ (a b : List Str) (i j : Nat),
    ∀ r ∈ extractLoop (lcsPairs a b i j) i j (i + a.length) (j + b.length),
      ∀ v w, a[r.oldTokStart - i]? = some v → b[r.newTokStart - j]? = some w → v ≠ w := by
  intro a
  induction a with
  | nil =>
    intro b i j r hr v w hv hw
    simp at hv
  | cons x a iha =>
    intro b
    induction b with
    | nil =>
      intro i j r hr v w hv hw
      simp at hw
    | cons y b ihb =>
      intro i j r hr v w hv hw
      rw [lcsPairs_cons_cons] at hr
      by_cases hxy : x = y
      · rw [if_pos hxy] at hr
        rw [extractLoop_cons] at hr
        simp only [gt_iff_lt, lt_self_iff_false, or_self, if_false, List.nil_append] at hr
        simp only [List.length_cons] at hr
        rw [show i + (a.length + 1) = i + 1 + a.length by omega,
          show j + (b.length + 1) = j + 1 + b.length by omega] at hr
        have hbnd := extractLoop_bounds (lcsPairs a b (i + 1) (j + 1)) (i + 1) (j + 1)
          (i + 1 + a.length) (j + 1 + b.length)
          (fun pq hpq => lcsPairs_bounds a b (i + 1) (j + 1) pq hpq)
          (lcsPairs_pairwise a b (i + 1) (j + 1)) (by omega) (by omega) r hr
        have hos : i + 1 ≤ r.oldTokStart := hbnd.1
        have hns : j + 1 ≤ r.newTokStart := hbnd.2.2.2.1
        rw [show r.oldTokStart - i = (r.oldTokStart - (i + 1)) + 1 by omega,
          List.getElem?_cons_succ] at hv
        rw [show r.newTokStart - j = (r.newTokStart - (j + 1)) + 1 by omega,
          List.getElem?_cons_succ] at hw
        exact iha b (i + 1) (j + 1) r hr v w hv hw
      · rw [if_neg hxy] at hr
        by_cases hge : lcsDP a (y :: b) ≥ lcsDP (x :: a) b
        · rw [if_pos hge] at hr
          rcases hP : lcsPairs a (y :: b) (i + 1) j with _ | ⟨⟨p, q⟩, rest⟩
          · rw [hP, extractLoop_nil] at hr
            have hco : i + (x :: a).length > i ∨ j + (y :: b).length > j := by
              left ; simp only [List.length_cons] ; omega
            rw [if_pos hco, List.mem_singleton] at hr
            subst hr
            simp only [Nat.sub_self, List.getElem?_cons_zero, Option.some.injEq] at hv hw
            rw [← hv, ← hw]
            exact hxy
          · rw [hP, extractLoop_cons] at hr
            simp only [List.length_cons] at hr
            rw [show i + (a.length + 1) = i + 1 + a.length by omega] at hr
            have hpq0 := lcsPairs_bounds a (y :: b) (i + 1) j (p, q)
              (by rw [hP] ; exact List.mem_cons_self _ _)
            simp only [List.length_cons] at hpq0
            have hp1 : i + 1 ≤ p := hpq0.1
            have hcond : p > i ∨ q > j := Or.inl (by omega)
            rw [if_pos hcond] at hr
            rcases List.mem_append.mp hr with hr | hr
            · rw [List.mem_singleton] at hr
              subst hr
              simp only [Nat.sub_self, List.getElem?_cons_zero, Option.some.injEq] at hv hw
              rw [← hv, ← hw]
              exact hxy
            · have hpw := lcsPairs_pairwise a (y :: b) (i + 1) j
              rw [hP] at hpw
              have hmem' : ∀ pq' ∈ rest, p + 1 ≤ pq'.1 ∧ pq'.1 < i + 1 + a.length ∧
                  q + 1 ≤ pq'.2 ∧ pq'.2 < j + (b.length + 1) := by
                intro pq' hpq'
                have hb1 := lcsPairs_bounds a (y :: b) (i + 1) j pq'
                  (by rw [hP] ; exact List.mem_cons_of_mem _ hpq')
                simp only [List.length_cons] at hb1
                have hb2 := (List.pairwise_cons.mp hpw).1 pq' hpq'
                exact ⟨by omega, hb1.2.1, by omega, hb1.2.2.2⟩
              have hq0 : q < j + (b.length + 1) := hpq0.2.2.2
              have hbnd := extractLoop_bounds rest (p + 1) (q + 1) (i + 1 + a.length)
                (j + (b.length + 1)) hmem' (List.pairwise_cons.mp hpw).2
                (by have := hpq0.2.1 ; omega) (by omega) r hr
              have hos : p + 1 ≤ r.oldTokStart := hbnd.1
              rw [show r.oldTokStart - i = (r.oldTokStart - (i + 1)) + 1 by omega,
                List.getElem?_cons_succ] at hv
              refine iha (y :: b) (i + 1) j r ?_ v w hv hw
              rw [hP, extractLoop_cons]
              simp only [List.length_cons]
              exact List.mem_append_right _ hr
        · rw [if_neg hge] at hr
          rcases hP : lcsPairs (x :: a) b i (j + 1) with _ | ⟨⟨p, q⟩, rest⟩
          · rw [hP, extractLoop_nil] at hr
            have hco : i + (x :: a).length > i ∨ j + (y :: b).length > j := by
              left ; simp only [List.length_cons] ; omega
            rw [if_pos hco, List.mem_singleton] at hr
            subst hr
            simp only [Nat.sub_self, List.getElem?_cons_zero, Option.some.injEq] at hv hw
            rw [← hv, ← hw]
            exact hxy
          · rw [hP, extractLoop_cons] at hr
            simp only [List.length_cons] at hr
            rw [show j + (b.length + 1) = j + 1 + b.length by omega] at hr
            have hpq0 := lcsPairs_bounds (x :: a) b i (j + 1) (p, q)
              (by rw [hP] ; exact List.mem_cons_self _ _)
            simp only [List.length_cons] at hpq0
            have hq1 : j + 1 ≤ q := hpq0.2.2.1
            have hcond : p > i ∨ q > j := Or.inr (by omega)
            rw [if_pos hcond] at hr
            rcases List.mem_append.mp hr with hr | hr
            · rw [List.mem_singleton] at hr
              subst hr
              simp only [Nat.sub_self, List.getElem?_cons_zero, Option.some.injEq] at hv hw
              rw [← hv, ← hw]
              exact hxy
            · have hpw := lcsPairs_pairwise (x :: a) b i (j + 1)
              rw [hP] at hpw
              have hmem' : ∀ pq' ∈ rest, p + 1 ≤ pq'.1 ∧ pq'.1 < i + (a.length + 1) ∧
                  q + 1 ≤ pq'.2 ∧ pq'.2 < j + 1 + b.length := by
                intro pq' hpq'
                have hb1 := lcsPairs_bounds (x :: a) b i (j + 1) pq'
                  (by rw [hP] ; exact List.mem_cons_of_mem _ hpq')
                simp only [List.length_cons] at hb1
                have hb2 := (List.pairwise_cons.mp hpw).1 pq' hpq'
                exact ⟨by omega, hb1.2.1, by omega, hb1.2.2.2⟩
              have hp0 : p < i + (a.length + 1) := hpq0.2.1
              have hbnd := extractLoop_bounds rest (p + 1) (q + 1) (i + (a.length + 1))
                (j + 1 + b.length) hmem' (List.pairwise_cons.mp hpw).2
                (by omega) (by have := hpq0.2.2.2 ; omega) r hr
              have hns : q + 1 ≤ r.newTokStart := hbnd.2.2.2.1
              rw [show r.newTokStart - j = (r.newTokStart - (j + 1)) + 1 by omega,
                List.getElem?_cons_succ] at hw
              refine ihb i (j + 1) r ?_ v w hv hw
              rw [hP, extractLoop_cons]
              simp only [List.length_cons]
              exact List.mem_append_right _ hr

/-- If extraction produces no change range at all, the two value sequences
have equal concatenations. -/
theorem extract_nil_flatten : ∀ (a b : List Str) (i j : Nat),
    extractLoop (lcsPairs a b i j) i j (i + a.length) (j + b.length) = [] →
    a.flatten = b.flatten := by
  intro a
  induction a with
  | nil =>
    intro b i j h
    rw [lcsPairs_nil_left, extractLoop_nil] at h
    split_ifs at h with hcond
    push_neg at hcond
    have hb : b.length = 0 := by omega
    rw [List.length_eq_zero] at hb
    rw [hb]
  | cons x a iha =>
    intro b
    induction b with
    | nil =>
      intro i j h
      rw [lcsPairs_nil_right, extractLoop_nil] at h
      have hco : i + (x :: a).length > i ∨ j + ([] : List Str).length > j := by
        left ; simp
      rw [if_pos hco] at h
      simp at h
    | cons y b ihb =>
      intro i j h
      rw [lcsPairs_cons_cons] at h
      by_cases hxy : x = y
      · rw [if_pos hxy] at h
        rw [extractLoop_cons] at h
        simp only [gt_iff_lt, lt_self_iff_false, or_self, if_false, List.nil_append] at h
        simp only [List.length_cons] at h
        rw [show i + (a.length + 1) = i + 1 + a.length by omega,
          show j + (b.length + 1) = j + 1 + b.length by omega] at h
        have := iha b (i + 1) (j + 1) h
        simp [hxy, this]
      · rw [if_neg hxy] at h
        exfalso
        by_cases hge : lcsDP a (y :: b) ≥ lcsDP (x :: a) b
        · rw [if_pos hge] at h
          rcases hP : lcsPairs a (y :: b) (i + 1) j with _ | ⟨⟨p, q⟩, rest⟩
          · rw [hP, extractLoop_nil] at h
            have hco : i + (x :: a).length > i ∨ j + (y :: b).length > j := by
              left ; simp
            rw [if_pos hco] at h
            simp at h
          · rw [hP, extractLoop_cons] at h
            have hp : i + 1 ≤ p :=
              (lcsPairs_bounds a (y :: b) (i + 1) j (p, q)
                (by rw [hP] ; exact List.mem_cons_self _ _)).1
            have hcond : p > i ∨ q > j := by left ; omega
            rw [if_pos hcond] at h
            simp at h
        · rw [if_neg hge] at h
          rcases hP : lcsPairs (x :: a) b i (j + 1) with _ | ⟨⟨p, q⟩, rest⟩
          · rw [hP, extractLoop_nil] at h
            have hco : i + (x :: a).length > i ∨ j + (y :: b).length > j := by
              left ; simp
            rw [if_pos hco] at h
            simp at h
          · rw [hP, extractLoop_cons] at h
            have hq : j + 1 ≤ q :=
              (lcsPairs_bounds (x :: a) b i (j + 1) (p, q)
                (by rw [hP] ; exact List.mem_cons_self _ _)).2.2.1
            have hcond : p > i ∨ q > j := by right ; omega
            rw [if_pos hcond] at h
            simp at h

/-! ## Merging: order preservation, start/end provenance, irreducibility -/

/-- A change range with ordered spans inside the token lists and at least one
nonempty side. -/
def RangeWF (n m : Nat) (r : ChangeRange) : Prop :=
  r.oldTokStart ≤ r.oldTokEnd ∧ r.oldTokEnd ≤ n ∧
  r.newTokStart ≤ r.newTokEnd ∧ r.newTokEnd ≤ m ∧
  (r.oldTokStart < r.oldTokEnd ∨ r.newTokStart < r.newTokEnd)

/-- Strict separation of two ranges on both sides. -/
def RangeLt (r r' : ChangeRange) : Prop :=
  r.oldTokEnd < r'.oldTokStart ∧ r.newTokEnd < r'.newTokStart

theorem mergeRec_nil (oT nT : List Token) (cur : ChangeRange) :
    mergeRec oT nT cur [] = [cur] := rfl

theorem mergeRec_cons (oT nT : List Token) (cur ch : ChangeRange) (rest : List ChangeRange) :
    mergeRec oT nT cur (ch :: rest) =
      if allSepBetween oT cur.oldTokEnd ch.oldTokStart ∧
          allSepBetween nT cur.newTokEnd ch.newTokStart then
        mergeRec oT nT ⟨cur.oldTokStart, ch.oldTokEnd, cur.newTokStart, ch.newTokEnd⟩ rest
      else cur :: mergeRec oT nT ch rest := rfl

/-- Master lemma for the merging fold: the output is nonempty, its head keeps
the starts of `cur`, every output range is well-formed and starts where some
input range started, the output is ordered, and no two consecutive output
ranges could still be merged. -/
theorem mergeRec_spec (oT nT : List Token) (n m : Nat) :
    ∀ (rest : List ChangeRange) (cur : ChangeRange),
    RangeWF n m cur → (∀ r ∈ rest, RangeWF n m r) →
    List.Chain' RangeLt (cur :: rest) →
    ∃ M Ms, mergeRec oT nT cur rest = M :: Ms ∧
      M.oldTokStart = cur.oldTokStart ∧ M.newTokStart = cur.newTokStart ∧
      cur.oldTokEnd ≤ M.oldTokEnd ∧ cur.newTokEnd ≤ M.newTokEnd ∧
      (∀ N ∈ M :: Ms, RangeWF n m N ∧
        ∃ r ∈ cur :: rest, N.oldTokStart = r.oldTokStart ∧ N.newTokStart = r.newTokStart) ∧
      List.Chain' RangeLt (M :: Ms) ∧
      List.Chain' (fun A B => ¬(allSepBetween oT A.oldTokEnd B.oldTokStart = true ∧
        allSepBetween nT A.newTokEnd B.newTokStart = true)) (M :: Ms) := by
  intro rest
  induction rest with
  | nil =>
    intro cur hcur _ _
    refine ⟨cur, [], rfl, rfl, rfl, le_refl _, le_refl _, ?_, by simp, by simp⟩
    intro N hN
    rw [List.mem_singleton] at hN
    rw [hN]
    exact ⟨hcur, cur, List.mem_cons_self _ _, rfl, rfl⟩
  | cons ch rest ih =>
    intro cur hcur hrest hchain
    have hch : RangeWF n m ch := hrest ch (List.mem_cons_self _ _)
    have hlt : RangeLt cur ch := (List.chain'_cons.mp hchain).1
    have hchain' : List.Chain' RangeLt (ch :: rest) := (List.chain'_cons.mp hchain).2
    rw [mergeRec_cons]
    by_cases hm : allSepBetween oT cur.oldTokEnd ch.oldTokStart ∧
        allSepBetween nT cur.newTokEnd ch.newTokStart
    · rw [if_pos hm]
      have hcurWF : RangeWF n m
          (⟨cur.oldTokStart, ch.oldTokEnd, cur.newTokStart, ch.newTokEnd⟩ : ChangeRange) := by
        obtain ⟨a1, a2, a3, a4, a5⟩ := hcur
        obtain ⟨b1, b2, b3, b4, b5⟩ := hch
        obtain ⟨c1, c2⟩ := hlt
        refine ⟨?_, ?_, ?_, ?_, ?_⟩
        · show cur.oldTokStart ≤ ch.oldTokEnd ; omega
        · show ch.oldTokEnd ≤ n ; omega
        · show cur.newTokStart ≤ ch.newTokEnd ; omega
        · show ch.newTokEnd ≤ m ; omega
        · show cur.oldTokStart < ch.oldTokEnd ∨ cur.newTokStart < ch.newTokEnd ; omega
      have hchain'' : List.Chain' RangeLt
          ((⟨cur.oldTokStart, ch.oldTokEnd, cur.newTokStart, ch.newTokEnd⟩ : ChangeRange)
            :: rest) := by
        rw [List.chain'_cons']
        have h2 := List.chain'_cons'.mp hchain'
        refine ⟨?_, h2.2⟩
        intro y hy
        have h3 := h2.1 y hy
        exact ⟨h3.1, h3.2⟩
      obtain ⟨M, Ms, heq, hs1, hs2, he1, he2, hall, hord, hnm⟩ :=
        ih ⟨cur.oldTokStart, ch.oldTokEnd, cur.newTokStart, ch.newTokEnd⟩ hcurWF
          (fun r hr => hrest r (List.mem_cons_of_mem _ hr)) hchain''
      refine ⟨M, Ms, heq, hs1, hs2, ?_, ?_, ?_, hord, hnm⟩
      · show cur.oldTokEnd ≤ M.oldTokEnd
        have h4 : cur.oldTokEnd < ch.oldTokStart := hlt.1
        have h5 : ch.oldTokStart ≤ ch.oldTokEnd := hch.1
        have h6 : ch.oldTokEnd ≤ M.oldTokEnd := he1
        omega
      · show cur.newTokEnd ≤ M.newTokEnd
        have h4 : cur.newTokEnd < ch.newTokStart := hlt.2
        have h5 : ch.newTokStart ≤ ch.newTokEnd := hch.2.2.1
        have h6 : ch.newTokEnd ≤ M.newTokEnd := he2
        omega
      · intro N hN
        obtain ⟨hwf, r, hr, hrs1, hrs2⟩ := hall N hN
        rcases List.mem_cons.mp hr with hr | hr
        · subst hr
          exact ⟨hwf, cur, List.mem_cons_self _ _, hrs1, hrs2⟩
        · exact ⟨hwf, r, List.mem_cons_of_mem _ (List.mem_cons_of_mem _ hr), hrs1, hrs2⟩
    · rw [if_neg hm]
      obtain ⟨M', Ms', heq, hs1, hs2, he1, he2, hall, hord, hnm⟩ :=
        ih ch hch (fun r hr => hrest r (List.mem_cons_of_mem _ hr)) hchain'
      refine ⟨cur, M' :: Ms', by rw [heq], rfl, rfl, le_refl _, le_refl _, ?_, ?_, ?_⟩
      · intro N hN
        rcases List.mem_cons.mp hN with hN | hN
        · rw [hN]
          exact ⟨hcur, cur, List.mem_cons_self _ _, rfl, rfl⟩
        · obtain ⟨hwf, r, hr, hrs1, hrs2⟩ := hall N hN
          exact ⟨hwf, r, List.mem_cons_of_mem _ hr, hrs1, hrs2⟩
      · rw [List.chain'_cons]
        refine ⟨⟨?_, ?_⟩, hord⟩
        · rw [hs1] ; exact hlt.1
        · rw [hs2] ; exact hlt.2
      · rw [List.chain'_cons]
        refine ⟨?_, hnm⟩
        rw [hs1, hs2]
        intro hcontra
        exact hm ⟨hcontra.1, hcontra.2⟩

/-- The merging pass over the full extracted list. -/
theorem mergeRanges_spec (oT nT : List Token) (n m : Nat) (changes : List ChangeRange)
    (hwf : ∀ r ∈ changes, RangeWF n m r) (hchain : List.Chain' RangeLt changes) :
    (∀ M ∈ mergeRanges oT nT changes, RangeWF n m M ∧
      ∃ r ∈ changes, M.oldTokStart = r.oldTokStart ∧ M.newTokStart = r.newTokStart) ∧
    List.Chain' RangeLt (mergeRanges oT nT changes) ∧
    List.Chain' (fun A B => ¬(allSepBetween oT A.oldTokEnd B.oldTokStart = true ∧
      allSepBetween nT A.newTokEnd B.newTokStart = true)) (mergeRanges oT nT changes) ∧
    (changes ≠ [] → mergeRanges oT nT changes ≠ []) := by
  cases changes with
  | nil => exact ⟨by simp [mergeRanges], by simp [mergeRanges], by simp [mergeRanges], by simp⟩
  | cons cur rest =>
    obtain ⟨M, Ms, heq, _, _, _, _, hall, hord, hnm⟩ :=
      mergeRec_spec oT nT n m rest cur (hwf cur (List.mem_cons_self _ _))
        (fun r hr => hwf r (List.mem_cons_of_mem _ hr)) hchain
    have hres : mergeRanges oT nT (cur :: rest) = M :: Ms := heq
    rw [hres]
    exact ⟨hall, hord, hnm, fun _ => by simp⟩

/-! ## Unique decomposition of a string into alternating class runs -/

/-- Helper for `runs_flatten_inj`: with class-pure nonempty alternating runs
on both sides and equal concatenations, the first run of one side cannot be
strictly shorter than the first run of the other. -/
theorem run_head_not_lt (wc : Char → Bool) (t1 t2 : Token) (r1 r2 : List Token)
    (hp1 : ∀ t ∈ t1 :: r1, t.value ≠ [] ∧ ∀ c ∈ t.value, kindOf (wc c) = t.kind)
    (hp2 : ∀ t ∈ t2 :: r2, t.value ≠ [] ∧ ∀ c ∈ t.value, kindOf (wc c) = t.kind)
    (ha1 : List.Chain' (fun a b => a.kind ≠ b.kind) (t1 :: r1))
    (hcat : t1.value ++ (r1.map Token.value).flatten =
      t2.value ++ (r2.map Token.value).flatten) :
    ¬ t1.value.length < t2.value.length := by
  intro hlt
  have hpre1 : t1.value <+: t2.value ++ (r2.map Token.value).flatten := by
    rw [← hcat] ; exact List.prefix_append _ _
  have hpre2 : t1.value <+: t2.value :=
    List.prefix_of_prefix_length_le hpre1 (List.prefix_append _ _) (Nat.le_of_lt hlt)
  obtain ⟨w, hw⟩ := hpre2
  rcases w with _ | ⟨d, w'⟩
  · rw [List.append_nil] at hw
    rw [hw] at hlt
    omega
  · have hC1 : (r1.map Token.value).flatten = d :: (w' ++ (r2.map Token.value).flatten) := by
      have hAC : t1.value ++ (r1.map Token.value).flatten =
          t1.value ++ (d :: (w' ++ (r2.map Token.value).flatten)) := by
        rw [hcat, ← hw]
        simp
      exact List.append_cancel_left hAC
    rcases r1 with _ | ⟨t1', r1'⟩
    · simp at hC1
    · have ht1' := hp1 t1' (List.mem_cons_of_mem _ (List.mem_cons_self _ _))
      rcases hval : t1'.value with _ | ⟨e, v'⟩
      · exact ht1'.1 hval
      · have hcons : t1'.value ++ (r1'.map Token.value).flatten =
            d :: (w' ++ (r2.map Token.value).flatten) := by
          simpa using hC1
        rw [hval, List.cons_append] at hcons
        have hde : e = d := (List.cons.injEq _ _ _ _ ▸ hcons).1
        have hemem : e ∈ t1'.value := by rw [hval] ; exact List.mem_cons_self _ _
        have hk1' : kindOf (wc e) = t1'.kind := ht1'.2 e hemem
        have hdmem : d ∈ t2.value := by
          rw [← hw]
          exact List.mem_append_right _ (List.mem_cons_self _ _)
        have hk2 : kindOf (wc d) = t2.kind :=
          (hp2 t2 (List.mem_cons_self _ _)).2 d hdmem
        have ht1 := hp1 t1 (List.mem_cons_self _ _)
        rcases hval1 : t1.value with _ | ⟨f, u⟩
        · exact ht1.1 hval1
        · have hfmem1 : f ∈ t1.value := by rw [hval1] ; exact List.mem_cons_self _ _
          have hfmem2 : f ∈ t2.value := by
            rw [← hw, hval1]
            exact List.mem_append_left _ (List.mem_cons_self _ _)
          have hk1 : kindOf (wc f) = t1.kind := ht1.2 f hfmem1
          have hk2' : kindOf (wc f) = t2.kind :=
            (hp2 t2 (List.mem_cons_self _ _)).2 f hfmem2
          have halt : t1.kind ≠ t1'.kind := (List.chain'_cons.mp ha1).1
          apply halt
          rw [← hk1, hk2', ← hk2, ← hde, hk1']

/-- Two class-pure, nonempty, class-alternating token runs with the same
concatenation have the same value sequences: the decomposition of a string
into alternating maximal class runs is unique. -/
theorem runs_flatten_inj (wc : Char → Bool) : ∀ (l1 l2 : List Token),
    (∀ t ∈ l1, t.value ≠ [] ∧ ∀ c ∈ t.value, kindOf (wc c) = t.kind) →
    (∀ t ∈ l2, t.value ≠ [] ∧ ∀ c ∈ t.value, kindOf (wc c) = t.kind) →
    List.Chain' (fun a b => a.kind ≠ b.kind) l1 →
    List.Chain' (fun a b => a.kind ≠ b.kind) l2 →
    (l1.map Token.value).flatten = (l2.map Token.value).flatten →
    l1.map Token.value = l2.map Token.value := by
  intro l1
  induction l1 with
  | nil =>
    intro l2 _ hp2 _ _ hcat
    rcases l2 with _ | ⟨t2, r2⟩
    · rfl
    · exfalso
      rw [List.map_nil, List.flatten_nil, List.map_cons, List.flatten_cons] at hcat
      have := List.append_eq_nil.mp hcat.symm
      exact (hp2 t2 (List.mem_cons_self _ _)).1 this.1
  | cons t1 r1 ih =>
    intro l2 hp1 hp2 ha1 ha2 hcat
    rcases l2 with _ | ⟨t2, r2⟩
    · exfalso
      rw [List.map_nil, List.flatten_nil, List.map_cons, List.flatten_cons] at hcat
      have := List.append_eq_nil.mp hcat
      exact (hp1 t1 (List.mem_cons_self _ _)).1 this.1
    · simp only [List.map_cons, List.flatten_cons] at hcat
      have hnlt1 := run_head_not_lt wc t1 t2 r1 r2 hp1 hp2 ha1 hcat
      have hnlt2 := run_head_not_lt wc t2 t1 r2 r1 hp2 hp1 ha2 hcat.symm
      have hlen : t1.value.length = t2.value.length := by omega
      obtain ⟨hhd, htl⟩ := List.append_inj hcat hlen
      have hrest := ih r2 (fun t ht => hp1 t (List.mem_cons_of_mem _ ht))
        (fun t ht => hp2 t (List.mem_cons_of_mem _ ht))
        (List.chain'_cons'.mp ha1).2 (List.chain'_cons'.mp ha2).2 htl
      simp only [List.map_cons]
      rw [hhd, hrest]

/-! ## Offset computation in prefix-sum form -/

/-- With well-formed span bounds, the old-side offsets of a change range are
exactly the prefix sums of token lengths at its span boundaries (in all three
cases of the source: nonempty span, empty span after a token, empty span at
the very start). -/
theorem oldOffsets_eq (oT : List Token) (s : Str) (htl : Tiled 0 oT s) (ch : ChangeRange)
    (h1 : ch.oldTokStart ≤ ch.oldTokEnd) (h2 : ch.oldTokEnd ≤ oT.length) :
    oldOffsets oT ch =
      ⟨sumLens (oT.take ch.oldTokStart), sumLens (oT.take ch.oldTokEnd)⟩ := by
  by_cases hasOld : ch.oldTokStart < ch.oldTokEnd
  · have hs : ch.oldTokStart < oT.length := by omega
    have he : ch.oldTokEnd - 1 < oT.length := by omega
    have g1 := tiled_get oT 0 s htl ch.oldTokStart hs
    have g2 := tiled_get oT 0 s htl (ch.oldTokEnd - 1) he
    have e1 : (oT.getD ch.oldTokStart dummyTok).start = sumLens (oT.take ch.oldTokStart) := by
      rw [List.getD_eq_get _ _ hs, g1.1]
      omega
    have e2 : (oT.getD (ch.oldTokEnd - 1) dummyTok).endIdx =
        sumLens (oT.take ch.oldTokEnd) := by
      rw [List.getD_eq_get _ _ he, g2.2,
        show ch.oldTokEnd - 1 + 1 = ch.oldTokEnd by omega]
      omega
    unfold oldOffsets
    rw [if_pos hasOld, e1, e2]
  · have heq : ch.oldTokStart = ch.oldTokEnd := by omega
    unfold oldOffsets
    rw [if_neg hasOld]
    show (⟨(if 1 ≤ ch.oldTokStart then (oT.getD (ch.oldTokStart - 1) dummyTok).endIdx else 0),
        (if 1 ≤ ch.oldTokStart then (oT.getD (ch.oldTokStart - 1) dummyTok).endIdx else 0)⟩ :
        Pos) = _
    by_cases h0 : 1 ≤ ch.oldTokStart
    · have hlt : ch.oldTokStart - 1 < oT.length := by omega
      have g := tiled_get oT 0 s htl (ch.oldTokStart - 1) hlt
      have e : (oT.getD (ch.oldTokStart - 1) dummyTok).endIdx =
          sumLens (oT.take ch.oldTokStart) := by
        rw [List.getD_eq_get _ _ hlt, g.2,
          show ch.oldTokStart - 1 + 1 = ch.oldTokStart by omega]
        omega
      rw [if_pos h0, e, ← heq]
    · have h00 : ch.oldTokStart = 0 := by omega
      have hz : sumLens (oT.take ch.oldTokStart) = 0 := by
        rw [h00]
        simp [sumLens]
      rw [if_neg h0, ← heq, hz]

/-- Analogous prefix-sum form for the new-side offsets, used when the new
span is nonempty. -/
theorem newOffsets_eq (nT : List Token) (s : Str) (htl : Tiled 0 nT s) (ch : ChangeRange)
    (h1 : ch.newTokStart < ch.newTokEnd) (h2 : ch.newTokEnd ≤ nT.length) :
    newOffsets nT ch =
      ⟨sumLens (nT.take ch.newTokStart), sumLens (nT.take ch.newTokEnd)⟩ := by
  unfold newOffsets
  have hs : ch.newTokStart < nT.length := by omega
  have he : ch.newTokEnd - 1 < nT.length := by omega
  rw [List.getD_eq_get _ _ hs, List.getD_eq_get _ _ he]
  have g1 := tiled_get nT 0 s htl ch.newTokStart hs
  have g2 := tiled_get nT 0 s htl (ch.newTokEnd - 1) he
  congr 1
  · rw [g1.1] ; omega
  · rw [g2.2, show ch.newTokEnd - 1 + 1 = ch.newTokEnd by omega] ; omega

/-! ## Restriction of the run invariants to a token span -/

theorem tokSpan_pure (wc : Char → Bool) (ts : List Token)
    (hp : ∀ t ∈ ts, t.value ≠ [] ∧ ∀ c ∈ t.value, kindOf (wc c) = t.kind) (p q : Nat) :
    ∀ t ∈ tokSpan ts p q, t.value ≠ [] ∧ ∀ c ∈ t.value, kindOf (wc c) = t.kind := by
  intro t ht
  exact hp t (List.mem_of_mem_take (List.mem_of_mem_drop ht))

theorem tokSpan_alternating (ts : List Token) (ha : Alternating ts) (p q : Nat) :
    List.Chain' (fun a b => a.kind ≠ b.kind) (tokSpan ts p q) :=
  (ha.take q).drop p

theorem tokSpan_length (ts : List Token) (p q : Nat) (hpq : p ≤ q) (hq : q ≤ ts.length) :
    (tokSpan ts p q).length = q - p := by
  unfold tokSpan
  rw [List.length_drop, List.length_take]
  omega

theorem tokSpan_nil (ts : List Token) (p : Nat) : tokSpan ts p p = [] := by
  unfold tokSpan
  rw [List.drop_eq_nil_iff, List.length_take]
  omega

/-- A nonempty span of nonempty-valued tokens has nonempty flattening. -/
theorem tokSpan_flatten_ne_nil (ts : List Token) (hv : ∀ t ∈ ts, t.value ≠ [])
    (p q : Nat) (hpq : p < q) (hq : q ≤ ts.length) :
    ((tokSpan ts p q).map Token.value).flatten ≠ [] := by
  rcases hsp : tokSpan ts p q with _ | ⟨t0, rest⟩
  · have := tokSpan_length ts p q (Nat.le_of_lt hpq) hq
    rw [hsp] at this
    simp at this
    omega
  · have ht0 : t0 ∈ ts := by
      have : t0 ∈ tokSpan ts p q := by rw [hsp] ; exact List.mem_cons_self _ _
      exact List.mem_of_mem_take (List.mem_of_mem_drop this)
    simp only [List.map_cons, List.flatten_cons]
    intro hcontra
    exact hv t0 ht0 (List.append_eq_nil.mp hcontra).1

theorem tokSpan_head (ts : List Token) (p q : Nat) (hpq : p < q) :
    (tokSpan ts p q).head? = ts[p]? := by
  unfold tokSpan
  rw [List.head?_drop, List.getElem?_take_of_lt hpq]

/-! ## Diff building -/

theorem buildDiffs_nil (oldS newS : Str) (oT nT : List Token) :
    buildDiffs oldS newS oT nT [] = [] := rfl

theorem buildDiffs_cons (oldS newS : Str) (oT nT : List Token) (ch : ChangeRange)
    (rest : List ChangeRange) :
    buildDiffs oldS newS oT nT (ch :: rest) =
      if strSlice oldS (oldOffsets oT ch).startIndex (oldOffsets oT ch).endIndex =
          (if ch.newTokStart < ch.newTokEnd then
            strSlice newS (newOffsets nT ch).startIndex (newOffsets nT ch).endIndex
          else []) then
        buildDiffs oldS newS oT nT rest
      else
        ⟨strSlice oldS (oldOffsets oT ch).startIndex (oldOffsets oT ch).endIndex,
          oldOffsets oT ch,
          (if ch.newTokStart < ch.newTokEnd then
            strSlice newS (newOffsets nT ch).startIndex (newOffsets nT ch).endIndex
          else []),
          classifyChange (tokSpan oT ch.oldTokStart ch.oldTokEnd)
            (tokSpan nT ch.newTokStart ch.newTokEnd)
            (strSlice oldS (oldOffsets oT ch).startIndex (oldOffsets oT ch).endIndex)
            (if ch.newTokStart < ch.newTokEnd then
              strSlice newS (newOffsets nT ch).startIndex (newOffsets nT ch).endIndex
            else [])⟩ ::
        buildDiffs oldS newS oT nT rest := rfl

/-- Every produced diff carries, as `oldText`, exactly the slice of the old
string at its reported position, and its position is the old-side offsets of
one of the processed ranges. -/
theorem buildDiffs_oldText_slice (oldS newS : Str) (oT nT : List Token) :
    ∀ (rs : List ChangeRange), ∀ d ∈ buildDiffs oldS newS oT nT rs,
      d.oldText = strSlice oldS d.position.startIndex d.position.endIndex ∧
      ∃ ch ∈ rs, d.position = oldOffsets oT ch := by
  intro rs
  induction rs with
  | nil =>
    intro d hd
    rw [buildDiffs_nil] at hd
    simp at hd
  | cons ch rest ih =>
    intro d hd
    rw [buildDiffs_cons] at hd
    by_cases hguard : strSlice oldS (oldOffsets oT ch).startIndex (oldOffsets oT ch).endIndex =
        (if ch.newTokStart < ch.newTokEnd then
          strSlice newS (newOffsets nT ch).startIndex (newOffsets nT ch).endIndex else [])
    · rw [if_pos hguard] at hd
      obtain ⟨h1, ch', hch', h2⟩ := ih d hd
      exact ⟨h1, ch', List.mem_cons_of_mem _ hch', h2⟩
    · rw [if_neg hguard] at hd
      rcases List.mem_cons.mp hd with hd | hd
      · rw [hd]
        exact ⟨rfl, ch, List.mem_cons_self _ _, rfl⟩
      · obtain ⟨h1, ch', hch', h2⟩ := ih d hd
        exact ⟨h1, ch', List.mem_cons_of_mem _ hch', h2⟩

theorem chain'_and {α : Type} {R S : α → α → Prop} :
    ∀ {l : List α}, List.Chain' R l → List.Chain' S l →
    List.Chain' (fun a b => R a b ∧ S a b) l := by
  intro l
  induction l with
  | nil => intro _ _ ; simp
  | cons a l ih =>
    intro hR hS
    rw [List.chain'_cons']
    refine ⟨?_, ih (List.chain'_cons'.mp hR).2 (List.chain'_cons'.mp hS).2⟩
    intro y hy
    exact ⟨(List.chain'_cons'.mp hR).1 y hy, (List.chain'_cons'.mp hS).1 y hy⟩

/-- For well-formed ranges, the consecutive separation relation is
transitive, so the chain gives full pairwise separation. -/
theorem chain'_rangeLt_pairwise (n m : Nat) :
    ∀ (l : List ChangeRange), (∀ r ∈ l, RangeWF n m r) →
    List.Chain' RangeLt l → List.Pairwise RangeLt l := by
  intro l
  induction l with
  | nil => intro _ _ ; simp
  | cons a l ih =>
    intro hwf hch
    rw [List.pairwise_cons]
    have hch2 := List.chain'_cons'.mp hch
    have hpl := ih (fun r hr => hwf r (List.mem_cons_of_mem _ hr)) hch2.2
    refine ⟨?_, hpl⟩
    intro b hb
    rcases l with _ | ⟨h0, l'⟩
    · simp at hb
    · have hah : RangeLt a h0 := hch2.1 h0 rfl
      rcases List.mem_cons.mp hb with hb | hb
      · rw [hb] ; exact hah
      · have hhb : RangeLt h0 b := (List.pairwise_cons.mp hpl).1 b hb
        have hwfh : RangeWF n m h0 := hwf h0 (List.mem_cons_of_mem _ (List.mem_cons_self _ _))
        have q1 := hah.1
        have q2 := hah.2
        have q3 := hhb.1
        have q4 := hhb.2
        have q5 := hwfh.1
        have q6 := hwfh.2.2.1
        exact ⟨by omega, by omega⟩

/-- Diffs are produced in strictly increasing `startIndex` order. -/
theorem buildDiffs_chain_start (oldS newS s0 : Str) (oT nT : List Token)
    (htl : Tiled 0 oT s0) (hv : ∀ t ∈ oT, t.value ≠ []) :
    ∀ (rs : List ChangeRange), (∀ r ∈ rs, RangeWF oT.length nT.length r) →
    List.Pairwise RangeLt rs →
    List.Chain' (fun d d' => d.position.startIndex < d'.position.startIndex)
      (buildDiffs oldS newS oT nT rs) := by
  intro rs
  induction rs with
  | nil => intro _ _ ; rw [buildDiffs_nil] ; simp
  | cons ch rest ih =>
    intro hwf hpw
    rw [buildDiffs_cons]
    by_cases hguard : strSlice oldS (oldOffsets oT ch).startIndex (oldOffsets oT ch).endIndex =
        (if ch.newTokStart < ch.newTokEnd then
          strSlice newS (newOffsets nT ch).startIndex (newOffsets nT ch).endIndex else [])
    · rw [if_pos hguard]
      exact ih (fun r hr => hwf r (List.mem_cons_of_mem _ hr)) (List.pairwise_cons.mp hpw).2
    · rw [if_neg hguard]
      rw [List.chain'_cons']
      refine ⟨?_,
        ih (fun r hr => hwf r (List.mem_cons_of_mem _ hr)) (List.pairwise_cons.mp hpw).2⟩
      intro d' hd'
      have hd'mem : d' ∈ buildDiffs oldS newS oT nT rest := List.mem_of_mem_head? hd'
      obtain ⟨_, ch', hch', hpos⟩ := buildDiffs_oldText_slice oldS newS oT nT rest d' hd'mem
      have hwf_ch := hwf ch (List.mem_cons_self _ _)
      have hwf_ch' := hwf ch' (List.mem_cons_of_mem _ hch')
      have hlt : RangeLt ch ch' := (List.pairwise_cons.mp hpw).1 ch' hch'
      show (oldOffsets oT ch).startIndex < d'.position.startIndex
      rw [hpos, oldOffsets_eq oT s0 htl ch hwf_ch.1 hwf_ch.2.1,
        oldOffsets_eq oT s0 htl ch' hwf_ch'.1 hwf_ch'.2.1]
      show sumLens (oT.take ch.oldTokStart) < sumLens (oT.take ch'.oldTokStart)
      apply sumLens_take_strict oT hv
      · have q1 := hlt.1
        have q2 := hwf_ch.1
        omega
      · have q3 := hwf_ch'.1
        have q4 := hwf_ch'.2.1
        omega

/-! ## The pipeline -/

theorem getTextDiffs_eq (wc : Char → Bool) (norm : Str → Str) (oldIn newIn : Str) :
    getTextDiffs wc norm oldIn newIn =
      if norm oldIn = norm newIn then []
      else
        buildDiffs (norm oldIn) (norm newIn) (tokenize wc norm (norm oldIn))
          (tokenize wc norm (norm newIn))
          (mergeRanges (tokenize wc norm (norm oldIn)) (tokenize wc norm (norm newIn))
            (extractLoop
              (lcsIndicesTokens (tokenize wc norm (norm oldIn))
                (tokenize wc norm (norm newIn))) 0 0
              (tokenize wc norm (norm oldIn)).length
              (tokenize wc norm (norm newIn)).length)) := rfl

/-- The change ranges extracted in the pipeline are well-formed. -/
theorem pipeline_changes_wf (oT nT : List Token) :
    ∀ r ∈ extractLoop (lcsIndicesTokens oT nT) 0 0 oT.length nT.length,
      RangeWF oT.length nT.length r := by
  intro r hr
  have hpairs_mem : ∀ pq ∈ lcsIndicesTokens oT nT,
      (0 : Nat) ≤ pq.1 ∧ pq.1 < oT.length ∧ (0 : Nat) ≤ pq.2 ∧ pq.2 < nT.length := by
    intro pq hpq
    have := lcsPairs_bounds (oT.map Token.value) (nT.map Token.value) 0 0 pq hpq
    simp only [List.length_map] at this
    exact ⟨Nat.zero_le _, by omega, Nat.zero_le _, by omega⟩
  have := extractLoop_bounds (lcsIndicesTokens oT nT) 0 0 oT.length nT.length
    hpairs_mem (lcsPairs_pairwise _ _ 0 0) (Nat.zero_le _) (Nat.zero_le _) r hr
  exact ⟨this.2.1, this.2.2.1, this.2.2.2.2.1, this.2.2.2.2.2.1, this.2.2.2.2.2.2⟩

theorem pipeline_changes_chain (oT nT : List Token) :
    List.Chain' RangeLt (extractLoop (lcsIndicesTokens oT nT) 0 0 oT.length nT.length) := by
  have hpairs_mem : ∀ pq ∈ lcsIndicesTokens oT nT,
      (0 : Nat) ≤ pq.1 ∧ pq.1 < oT.length ∧ (0 : Nat) ≤ pq.2 ∧ pq.2 < nT.length := by
    intro pq hpq
    have := lcsPairs_bounds (oT.map Token.value) (nT.map Token.value) 0 0 pq hpq
    simp only [List.length_map] at this
    exact ⟨Nat.zero_le _, by omega, Nat.zero_le _, by omega⟩
  exact extractLoop_chain (lcsIndicesTokens oT nT) 0 0 oT.length nT.length
    hpairs_mem (lcsPairs_pairwise _ _ 0 0) (Nat.zero_le _) (Nat.zero_le _)

/-- In the pipeline, no merged change range is dropped by the defensive
`oldSlice === newSlice` guard: the old and new slices of a merged range
always differ.  (An empty span yields an empty slice against a nonempty one;
with both spans nonempty, equal slices would force equal value sequences by
unique run decomposition, hence equal values at the span starts, which the
reconstruction's head-divergence forbids.) -/
theorem pipeline_no_drop (wc : Char → Bool) (s t : Str) (M : ChangeRange)
    (hM : M ∈ mergeRanges (tokenizeFallback wc s) (tokenizeFallback wc t)
      (extractLoop
        (lcsIndicesTokens (tokenizeFallback wc s) (tokenizeFallback wc t)) 0 0
        (tokenizeFallback wc s).length (tokenizeFallback wc t).length)) :
    strSlice s (oldOffsets (tokenizeFallback wc s) M).startIndex
        (oldOffsets (tokenizeFallback wc s) M).endIndex ≠
      (if M.newTokStart < M.newTokEnd then
        strSlice t (newOffsets (tokenizeFallback wc t) M).startIndex
          (newOffsets (tokenizeFallback wc t) M).endIndex
      else []) := by
  set oT := tokenizeFallback wc s with hoT
  set nT := tokenizeFallback wc t with hnT
  obtain ⟨hall, hord, hnm, hnonnil⟩ := mergeRanges_spec oT nT oT.length nT.length
    (extractLoop (lcsIndicesTokens oT nT) 0 0 oT.length nT.length)
    (pipeline_changes_wf oT nT) (pipeline_changes_chain oT nT)
  obtain ⟨hMwf, r, hr, hrs1, hrs2⟩ := hall M hM
  have htlO : Tiled 0 oT s := tokenizeFallback_tiled wc s
  have htlN : Tiled 0 nT t := tokenizeFallback_tiled wc t
  have hpureO := tokenizeFallback_pure wc s
  have hpureN := tokenizeFallback_pure wc t
  have haltO := tokenizeFallback_alternating wc s
  have haltN := tokenizeFallback_alternating wc t
  have hvO : ∀ tk ∈ oT, tk.value ≠ [] := fun tk htk => (hpureO tk htk).1
  have hvN : ∀ tk ∈ nT, tk.value ≠ [] := fun tk htk => (hpureN tk htk).1
  obtain ⟨w1, w2, w3, w4, w5⟩ := hMwf
  have hOslice : strSlice s (oldOffsets oT M).startIndex (oldOffsets oT M).endIndex =
      ((tokSpan oT M.oldTokStart M.oldTokEnd).map Token.value).flatten := by
    rw [oldOffsets_eq oT s htlO M w1 w2]
    exact tiled_slice oT s htlO M.oldTokStart M.oldTokEnd w1 w2
  by_cases hN : M.newTokStart < M.newTokEnd
  · rw [if_pos hN]
    have hNslice : strSlice t (newOffsets nT M).startIndex (newOffsets nT M).endIndex =
        ((tokSpan nT M.newTokStart M.newTokEnd).map Token.value).flatten := by
      rw [newOffsets_eq nT t htlN M hN w4]
      exact tiled_slice nT t htlN M.newTokStart M.newTokEnd (Nat.le_of_lt hN) w4
    rw [hOslice, hNslice]
    by_cases hO : M.oldTokStart < M.oldTokEnd
    · intro hcontra
      have hvals := runs_flatten_inj wc (tokSpan oT M.oldTokStart M.oldTokEnd)
        (tokSpan nT M.newTokStart M.newTokEnd)
        (tokSpan_pure wc oT hpureO _ _) (tokSpan_pure wc nT hpureN _ _)
        (tokSpan_alternating oT haltO _ _) (tokSpan_alternating nT haltN _ _) hcontra
      have hmapheads : (oT[M.oldTokStart]?).map Token.value =
          (nT[M.newTokStart]?).map Token.value := by
        rw [← tokSpan_head oT M.oldTokStart M.oldTokEnd hO,
          ← tokSpan_head nT M.newTokStart M.newTokEnd hN,
          ← List.head?_map, ← List.head?_map, hvals]
      have hvaeq : (oT.map Token.value)[M.oldTokStart]? =
          (nT.map Token.value)[M.newTokStart]? := by
        rw [List.getElem?_map, List.getElem?_map, hmapheads]
      have hlenO : M.oldTokStart < (oT.map Token.value).length := by
        rw [List.length_map] ; omega
      obtain ⟨v, hv⟩ : ∃ v, (oT.map Token.value)[M.oldTokStart]? = some v :=
        ⟨_, List.getElem?_eq_getElem hlenO⟩
      have hw : (nT.map Token.value)[M.newTokStart]? = some v := by
        rw [← hvaeq] ; exact hv
      have hrmem : r ∈ extractLoop
          (lcsPairs (oT.map Token.value) (nT.map Token.value) 0 0) 0 0
          (0 + (oT.map Token.value).length) (0 + (nT.map Token.value).length) := by
        have hsh : extractLoop
            (lcsPairs (oT.map Token.value) (nT.map Token.value) 0 0) 0 0
            (0 + (oT.map Token.value).length) (0 + (nT.map Token.value).length) =
            extractLoop (lcsIndicesTokens oT nT) 0 0 oT.length nT.length := by
          simp [lcsIndicesTokens]
        rw [hsh]
        exact hr
      exact extract_head_ne (oT.map Token.value) (nT.map Token.value) 0 0 r hrmem v v
        (by rw [Nat.sub_zero, ← hrs1] ; exact hv)
        (by rw [Nat.sub_zero, ← hrs2] ; exact hw) rfl
    · have hOeq : M.oldTokStart = M.oldTokEnd := by omega
      rw [hOeq, tokSpan_nil]
      simp only [List.map_nil, List.flatten_nil]
      intro hcontra
      exact tokSpan_flatten_ne_nil nT hvN M.newTokStart M.newTokEnd hN w4 hcontra.symm
  · rw [if_neg hN]
    have hO : M.oldTokStart < M.oldTokEnd := by
      rcases w5 with h | h
      · exact h
      · omega
    rw [hOslice]
    exact tokSpan_flatten_ne_nil oT hvO M.oldTokStart M.oldTokEnd hO w2

/-- Claim C5: every returned diff's `oldText` is exactly the slice of the
normalized old string between its reported offsets, and those offsets are the
old-side offsets (`oldOffsets`: first old token's start and last old token's
end for a nonempty span, otherwise the preceding token's end, or 0 when the
span is at the very start) of one of the final merged change ranges. -/
theorem claim_C5_offset_fidelity (wc : Char → Bool) (norm : Str → Str) (x y : Str) :
    ∀ d ∈ getTextDiffs wc norm x y,
      d.oldText = strSlice (norm x) d.position.startIndex d.position.endIndex ∧
      ∃ ch ∈ mergeRanges (tokenize wc norm (norm x)) (tokenize wc norm (norm y))
          (extractLoop
            (lcsIndicesTokens (tokenize wc norm (norm x)) (tokenize wc norm (norm y)))
            0 0 (tokenize wc norm (norm x)).length (tokenize wc norm (norm y)).length),
        d.position = oldOffsets (tokenize wc norm (norm x)) ch := by
  intro d hd
  rw [getTextDiffs_eq] at hd
  split_ifs at hd with h
  · simp at hd
  · exact buildDiffs_oldText_slice _ _ _ _ _ d hd

theorem claim_C5_offset_fidelity_witness :
    (⟨['a'], ⟨0, 1⟩, ['b'], ChangeType.spellCorrection⟩ : TextDiff).oldText =
      strSlice (id ['a'])
        (⟨['a'], ⟨0, 1⟩, ['b'], ChangeType.spellCorrection⟩ : TextDiff).position.startIndex
        (⟨['a'], ⟨0, 1⟩, ['b'], ChangeType.spellCorrection⟩ : TextDiff).position.endIndex ∧
    ∃ ch ∈ mergeRanges (tokenize wcAscii id (id ['a'])) (tokenize wcAscii id (id ['b']))
        (extractLoop
          (lcsIndicesTokens (tokenize wcAscii id (id ['a'])) (tokenize wcAscii id (id ['b'])))
          0 0 (tokenize wcAscii id (id ['a'])).length (tokenize wcAscii id (id ['b'])).length),
      (⟨['a'], ⟨0, 1⟩, ['b'], ChangeType.spellCorrection⟩ : TextDiff).position =
        oldOffsets (tokenize wcAscii id (id ['a'])) ch :=
  claim_C5_offset_fidelity wcAscii id ['a'] ['b']
    ⟨['a'], ⟨0, 1⟩, ['b'], ChangeType.spellCorrection⟩ (by decide)

/-- Claim C6: the diffs returned by `getTextDiffs` are ordered by strictly
increasing `position.startIndex`. -/
theorem claim_C6_monotonic (wc : Char → Bool) (norm : Str → Str) (x y : Str) :
    List.Chain' (fun d d' => d.position.startIndex < d'.position.startIndex)
      (getTextDiffs wc norm x y) := by
  rw [getTextDiffs_eq]
  split_ifs with h
  · simp
  · have hspec := mergeRanges_spec (tokenize wc norm (norm x)) (tokenize wc norm (norm y))
      (tokenize wc norm (norm x)).length (tokenize wc norm (norm y)).length
      (extractLoop
        (lcsIndicesTokens (tokenize wc norm (norm x)) (tokenize wc norm (norm y))) 0 0
        (tokenize wc norm (norm x)).length (tokenize wc norm (norm y)).length)
      (pipeline_changes_wf _ _) (pipeline_changes_chain _ _)
    apply buildDiffs_chain_start (norm x) (norm y) (norm (norm x))
      (tokenize wc norm (norm x)) (tokenize wc norm (norm y))
    · exact tokenizeFallback_tiled wc (norm (norm x))
    · intro t ht
      exact (tokenizeFallback_pure wc (norm (norm x)) t ht).1
    · intro r hr
      exact (hspec.1 r hr).1
    · apply chain'_rangeLt_pairwise (tokenize wc norm (norm x)).length
        (tokenize wc norm (norm y)).length
      · intro r hr
        exact (hspec.1 r hr).1
      · exact hspec.2.1

/-- Claim C7: after the merging pass the change-range list is ordered (both
token spans advance strictly between consecutive ranges) and irreducible: for
no two consecutive ranges are the token spans strictly between them
all-separator on both sides (`allSepBetween` counts an empty between-span as
all separators), so no further merge is possible. -/
theorem claim_C7_merged_irreducible (wc : Char → Bool) (norm : Str → Str) (x y : Str) :
    List.Chain'
      (fun A B => RangeLt A B ∧
        ¬(allSepBetween (tokenize wc norm (norm x)) A.oldTokEnd B.oldTokStart = true ∧
          allSepBetween (tokenize wc norm (norm y)) A.newTokEnd B.newTokStart = true))
      (mergeRanges (tokenize wc norm (norm x)) (tokenize wc norm (norm y))
        (extractLoop
          (lcsIndicesTokens (tokenize wc norm (norm x)) (tokenize wc norm (norm y))) 0 0
          (tokenize wc norm (norm x)).length (tokenize wc norm (norm y)).length)) := by
  have hspec := mergeRanges_spec (tokenize wc norm (norm x)) (tokenize wc norm (norm y))
    (tokenize wc norm (norm x)).length (tokenize wc norm (norm y)).length
    (extractLoop
      (lcsIndicesTokens (tokenize wc norm (norm x)) (tokenize wc norm (norm y))) 0 0
      (tokenize wc norm (norm x)).length (tokenize wc norm (norm y)).length)
    (pipeline_changes_wf _ _) (pipeline_changes_chain _ _)
  exact chain'_and hspec.2.1 hspec.2.2.1

/-- Claim C1: `getTextDiffs` returns the empty list exactly when the two
normalized inputs are equal (in particular on two equal inputs).  The forward
direction is the short-circuit; conversely, when the normalized strings
differ, extraction produces at least one range (an empty extraction forces
the token concatenations, hence the strings, to be equal), merging keeps the
list nonempty, and no merged range is dropped by the slice-equality guard
(`pipeline_no_drop`), so at least one diff is emitted. -/
theorem claim_C1_empty_iff (wc : Char → Bool) (norm : Str → Str)
    (hn : ∀ s, norm (norm s) = norm s) (x y : Str) :
    (getTextDiffs wc norm x y = [] ↔ norm x = norm y) ∧ getTextDiffs wc norm x x = [] := by
  have hmain : ∀ x y : Str, getTextDiffs wc norm x y = [] ↔ norm x = norm y := by
    intro x y
    constructor
    · intro hdiff
      by_contra hne
      rw [getTextDiffs_eq, if_neg hne] at hdiff
      have hoT : tokenize wc norm (norm x) = tokenizeFallback wc (norm x) := by
        unfold tokenize
        rw [hn]
      have hnT : tokenize wc norm (norm y) = tokenizeFallback wc (norm y) := by
        unfold tokenize
        rw [hn]
      rw [hoT, hnT] at hdiff
      set oT := tokenizeFallback wc (norm x) with hoTdef
      set nT := tokenizeFallback wc (norm y) with hnTdef
      rcases hchg : extractLoop (lcsIndicesTokens oT nT) 0 0 oT.length nT.length
        with _ | ⟨c0, crest⟩
      · have hflat : (oT.map Token.value).flatten = (nT.map Token.value).flatten := by
          apply extract_nil_flatten (oT.map Token.value) (nT.map Token.value) 0 0
          have hsh : extractLoop
              (lcsPairs (oT.map Token.value) (nT.map Token.value) 0 0) 0 0
              (0 + (oT.map Token.value).length) (0 + (nT.map Token.value).length) =
              extractLoop (lcsIndicesTokens oT nT) 0 0 oT.length nT.length := by
            simp [lcsIndicesTokens]
          rw [hsh, hchg]
        apply hne
        calc norm x = (oT.map Token.value).flatten :=
              tiled_flatten oT 0 (norm x) (tokenizeFallback_tiled wc (norm x))
        _ = (nT.map Token.value).flatten := hflat
        _ = norm y := (tiled_flatten nT 0 (norm y) (tokenizeFallback_tiled wc (norm y))).symm
      · obtain ⟨hall, hord, hnm, hnonnil⟩ := mergeRanges_spec oT nT oT.length nT.length
          (extractLoop (lcsIndicesTokens oT nT) 0 0 oT.length nT.length)
          (pipeline_changes_wf oT nT) (pipeline_changes_chain oT nT)
        have hmne : mergeRanges oT nT
            (extractLoop (lcsIndicesTokens oT nT) 0 0 oT.length nT.length) ≠ [] := by
          apply hnonnil
          rw [hchg]
          simp
        rcases hmg : mergeRanges oT nT
            (extractLoop (lcsIndicesTokens oT nT) 0 0 oT.length nT.length)
          with _ | ⟨M, Ms⟩
        · exact hmne hmg
        · rw [hmg, buildDiffs_cons] at hdiff
          have hMmem : M ∈ mergeRanges (tokenizeFallback wc (norm x))
              (tokenizeFallback wc (norm y))
              (extractLoop
                (lcsIndicesTokens (tokenizeFallback wc (norm x))
                  (tokenizeFallback wc (norm y))) 0 0
                (tokenizeFallback wc (norm x)).length
                (tokenizeFallback wc (norm y)).length) := by
            show M ∈ mergeRanges oT nT
              (extractLoop (lcsIndicesTokens oT nT) 0 0 oT.length nT.length)
            rw [hmg]
            exact List.mem_cons_self _ _
          have hnd := pipeline_no_drop wc (norm x) (norm y) M hMmem
          by_cases hg : strSlice (norm x) (oldOffsets oT M).startIndex
              (oldOffsets oT M).endIndex =
              (if M.newTokStart < M.newTokEnd then
                strSlice (norm y) (newOffsets nT M).startIndex (newOffsets nT M).endIndex
              else [])
          · exact hnd hg
          · rw [if_neg hg] at hdiff
            simp at hdiff
    · intro h
      rw [getTextDiffs_eq, if_pos h]
  exact ⟨hmain x y, (hmain x x).mpr rfl⟩

theorem claim_C1_empty_iff_witness :
    (getTextDiffs wcAscii id ['a'] ['b'] = [] ↔ id ['a'] = id ['b']) ∧
    getTextDiffs wcAscii id ['a'] ['a'] = [] :=
  claim_C1_empty_iff wcAscii id (fun _ => rfl) ['a'] ['b']

/-- Modelled from the spec: the normalize-once pipeline — each input is
normalized a single time and every later stage (in particular the tokenizer)
operates on that already-normalized string, with no re-normalization inside
`tokenize`. -/
def getTextDiffsOnce (wc : Char → Bool) (norm : Str → Str) (oldInput newInput : Str) :
    List TextDiff :=
  let oldText := norm oldInput
  let newText := norm newInput
  if oldText = newText then []
  else
    let oldTokens := tokenizeFallback wc oldText
    let newTokens := tokenizeFallback wc newText
    let lcs := lcsIndicesTokens oldTokens newTokens
    let changes := extractLoop lcs 0 0 oldTokens.length newTokens.length
    let merged := mergeRanges oldTokens newTokens changes
    buildDiffs oldText newText oldTokens newTokens merged

/-- Claim C9: since NFC is idempotent, the source pipeline (which normalizes
each input once in `getTextDiffs` and once more inside `tokenize`) behaves
identically to a pipeline in which each input is normalized exactly once,
before tokenization and before the short-circuit equality check, and every
later stage operates on that already-normalized string. -/
theorem claim_C9_normalize_once (wc : Char → Bool) (norm : Str → Str)
    (hn : ∀ s, norm (norm s) = norm s) (x y : Str) :
    getTextDiffs wc norm x y = getTextDiffsOnce wc norm x y := by
  simp only [getTextDiffs, getTextDiffsOnce, tokenize]
  rw [hn x, hn y]

theorem claim_C9_normalize_once_witness :
    getTextDiffs wcAscii id ("ab".toList) ("cd".toList) =
      getTextDiffsOnce wcAscii id ("ab".toList) ("cd".toList) :=
  claim_C9_normalize_once wcAscii id (fun _ => rfl) ("ab".toList) ("cd".toList)

/-- Claim C8: `getTextDiffs "quick brown fox" "fast dark wolf"` returns
exactly one diff, with `oldText` the whole old string, `newText` the whole
new string, position spanning the old string, and changeType `replace` —
the three word substitutions merge across the unchanged spaces.  (NFC is the
identity on this ASCII input and `wcAscii` agrees with `\p{L}\p{N}\p{M}`
there, so `id` and `wcAscii` instantiate the two platform parameters.) -/
theorem claim_C8_merge_example :
    getTextDiffs wcAscii id ("quick brown fox".toList) ("fast dark wolf".toList) =
      [⟨"quick brown fox".toList, ⟨0, 15⟩, "fast dark wolf".toList,
        ChangeType.replace⟩] := by
  decide

/-! ## C10: checked variants

JavaScript would fail only where a missing element is dereferenced
(`oldTokens[i].start`, `newTokens[i].end`, `prev[j]`, `prev[m]`, ...).  The
checked variants below return `none` exactly where the source would
dereference a missing array element; proving them equal to `some` of the
total model shows every such access is in bounds on every input. -/

def oldOffsetsChk (oldToks : List Token) (ch : ChangeRange) : Option Pos :=
  if ch.oldTokStart < ch.oldTokEnd then
    match oldToks[ch.oldTokStart]?, oldToks[ch.oldTokEnd - 1]? with
    | some t1, some t2 => some ⟨t1.start, t2.endIdx⟩
    | _, _ => none
  else if 1 ≤ ch.oldTokStart then
    match oldToks[ch.oldTokStart - 1]? with
    | some tk => some ⟨tk.endIdx, tk.endIdx⟩
    | none => none
  else some ⟨0, 0⟩

def newOffsetsChk (newToks : List Token) (ch : ChangeRange) : Option Pos :=
  match newToks[ch.newTokStart]?, newToks[ch.newTokEnd - 1]? with
  | some t1, some t2 => some ⟨t1.start, t2.endIdx⟩
  | _, _ => none

def levScanChk (ai : Char) : Str → List Nat → Nat → Option (List Nat)
  | y :: bs, d :: rest, left =>
      match rest.head? with
      | some above =>
          (levScanChk ai bs rest
            (min (above + 1) (min (left + 1) (d + if ai = y then 0 else 1)))).map
            (fun tl => min (above + 1) (min (left + 1) (d + if ai = y then 0 else 1)) :: tl)
      | none => none
  | [], _, _ => some []
  | _ :: _, [], _ => none

def levLoopChk : Str → Str → List Nat → Nat → Option (List Nat)
  | [], _, prev, _ => some prev
  | c :: rest, b, prev, i =>
      match levScanChk c b prev i with
      | some row => levLoopChk rest b (i :: row) (i + 1)
      | none => none

def levenshteinChk (a b : Str) : Option Nat :=
  if a = b then some 0
  else if a.length = 0 then some b.length
  else if b.length = 0 then some a.length
  else
    match levLoopChk a b (List.range (b.length + 1)) 1 with
    | some row => row[b.length]?
    | none => none

def classifyChangeChk (oldTokSlice newTokSlice : List Token) (oldSlice newSlice : Str) :
    Option ChangeType :=
  if oldSlice.length = 0 ∧ 0 < newSlice.length then some ChangeType.insert
  else if newSlice.length = 0 ∧ 0 < oldSlice.length then some ChangeType.delete
  else
    match oldTokSlice.filter (fun t => decide (t.kind = TokKind.word)),
        newTokSlice.filter (fun t => decide (t.kind = TokKind.word)) with
    | [ow], [nw] =>
        match levenshteinChk ow.value nw.value with
        | some d =>
            if 0 < d ∧ d ≤ max 2 ((3 * max ow.value.length nw.value.length + 9) / 10) then
              some ChangeType.spellCorrection
            else some ChangeType.replace
        | none => none
    | _, _ => some ChangeType.replace

def buildDiffsChk (oldS newS : Str) (oT nT : List Token) :
    List ChangeRange → Option (List TextDiff)
  | [] => some []
  | ch :: rest =>
      match oldOffsetsChk oT ch,
          (if ch.newTokStart < ch.newTokEnd then newOffsetsChk nT ch else some ⟨0, 0⟩) with
      | some op, some np =>
          if strSlice oldS op.startIndex op.endIndex =
              (if ch.newTokStart < ch.newTokEnd then
                strSlice newS np.startIndex np.endIndex else []) then
            buildDiffsChk oldS newS oT nT rest
          else
            match classifyChangeChk (tokSpan oT ch.oldTokStart ch.oldTokEnd)
                (tokSpan nT ch.newTokStart ch.newTokEnd)
                (strSlice oldS op.startIndex op.endIndex)
                (if ch.newTokStart < ch.newTokEnd then
                  strSlice newS np.startIndex np.endIndex else []),
              buildDiffsChk oldS newS oT nT rest with
            | some ct, some ds =>
                some (⟨strSlice oldS op.startIndex op.endIndex, op,
                  (if ch.newTokStart < ch.newTokEnd then
                    strSlice newS np.startIndex np.endIndex else []), ct⟩ :: ds)
            | _, _ => none
      | _, _ => none

def getTextDiffsChk (wc : Char → Bool) (norm : Str → Str) (oldInput newInput : Str) :
    Option (List TextDiff) :=
  let oldText := norm oldInput
  let newText := norm newInput
  if oldText = newText then some []
  else
    let oldTokens := tokenize wc norm oldText
    let newTokens := tokenize wc norm newText
    let lcs := lcsIndicesTokens oldTokens newTokens
    let changes := extractLoop lcs 0 0 oldTokens.length newTokens.length
    let merged := mergeRanges oldTokens newTokens changes
    buildDiffsChk oldText newText oldTokens newTokens merged

theorem levScan_length (ai : Char) : ∀ (bs : Str) (prev : List Nat) (left : Nat),
    bs.length + 1 ≤ prev.length → (levScan ai bs prev left).length = bs.length := by
  intro bs
  induction bs with
  | nil => intro prev left _ ; rfl
  | cons y bs ih =>
    intro prev left h
    rcases prev with _ | ⟨d, rest⟩
    · simp at h
    · show (_ :: levScan ai bs rest _).length = _
      rw [List.length_cons]
      rw [ih rest _ (by simp at h ; omega)]
      rfl

theorem levScanChk_eq (ai : Char) : ∀ (bs : Str) (prev : List Nat) (left : Nat),
    bs.length + 1 ≤ prev.length →
    levScanChk ai bs prev left = some (levScan ai bs prev left) := by
  intro bs
  induction bs with
  | nil => intro prev left _ ; rfl
  | cons y bs ih =>
    intro prev left h
    rcases prev with _ | ⟨d, rest⟩
    · simp at h
    · rcases rest with _ | ⟨r0, rest'⟩
      · simp at h
      · show (levScanChk ai (y :: bs) (d :: r0 :: rest') left) = _
        have hlen : bs.length + 1 ≤ (r0 :: rest').length := by simp at h ⊢ ; omega
        simp only [levScanChk, List.head?_cons]
        rw [ih (r0 :: rest') _ hlen]
        show some _ = some (levScan ai (y :: bs) (d :: r0 :: rest') left)
        simp only [levScan, List.headD_cons]

theorem levLoopChk_eq : ∀ (as bs : Str) (prev : List Nat) (i : Nat),
    prev.length = bs.length + 1 →
    levLoopChk as bs prev i = some (levLoop as bs prev i) ∧
    (levLoop as bs prev i).length = bs.length + 1 := by
  intro as
  induction as with
  | nil => intro bs prev i h ; exact ⟨rfl, h⟩
  | cons c rest ih =>
    intro bs prev i h
    have hb : bs.length + 1 ≤ prev.length := by omega
    have hscan := levScanChk_eq c bs prev i hb
    have hslen := levScan_length c bs prev i hb
    have hnext : (i :: levScan c bs prev i).length = bs.length + 1 := by
      rw [List.length_cons, hslen]
    constructor
    · show levLoopChk (c :: rest) bs prev i = _
      simp only [levLoopChk, hscan]
      exact (ih bs (i :: levScan c bs prev i) (i + 1) hnext).1
    · exact (ih bs (i :: levScan c bs prev i) (i + 1) hnext).2

theorem levenshteinChk_eq (a b : Str) : levenshteinChk a b = some (levenshtein a b) := by
  unfold levenshteinChk levenshtein
  split_ifs with h1 h2 h3
  · rfl
  · rfl
  · rfl
  · have hrange : (List.range (b.length + 1)).length = b.length + 1 := by simp
    obtain ⟨heq, hlen⟩ := levLoopChk_eq a b (List.range (b.length + 1)) 1 hrange
    rw [heq]
    have hlt : b.length < (levLoop a b (List.range (b.length + 1)) 1).length := by omega
    show (levLoop a b (List.range (b.length + 1)) 1)[b.length]? = _
    rw [List.getElem?_eq_getElem hlt]
    rw [List.getD_eq_get _ _ hlt]
    rfl

theorem classifyChangeChk_eq (ots nts : List Token) (os ns : Str) :
    classifyChangeChk ots nts os ns = some (classifyChange ots nts os ns) := by
  unfold classifyChangeChk classifyChange
  split_ifs with h1 h2
  · rfl
  · rfl
  · rcases hfo : ots.filter (fun t => decide (t.kind = TokKind.word)) with
        _ | ⟨ow, _ | ⟨ow2, l1⟩⟩ <;>
      rcases hfn : nts.filter (fun t => decide (t.kind = TokKind.word)) with
        _ | ⟨nw, _ | ⟨nw2, l2⟩⟩ <;>
      simp only [hfo, hfn, levenshteinChk_eq] <;>
      first
      | rfl
      | (split_ifs <;> rfl)

theorem oldOffsetsChk_eq (oT : List Token) (ch : ChangeRange)
    (h1 : ch.oldTokStart ≤ ch.oldTokEnd) (h2 : ch.oldTokEnd ≤ oT.length) :
    oldOffsetsChk oT ch = some (oldOffsets oT ch) := by
  unfold oldOffsetsChk oldOffsets
  by_cases hO : ch.oldTokStart < ch.oldTokEnd
  · rw [if_pos hO, if_pos hO]
    have hs : ch.oldTokStart < oT.length := by omega
    have he : ch.oldTokEnd - 1 < oT.length := by omega
    rw [List.getElem?_eq_getElem hs, List.getElem?_eq_getElem he]
    rw [List.getD_eq_get _ _ hs, List.getD_eq_get _ _ he]
    rfl
  · rw [if_neg hO, if_neg hO]
    by_cases h0 : 1 ≤ ch.oldTokStart
    · rw [if_pos h0]
      have hlt : ch.oldTokStart - 1 < oT.length := by omega
      rw [List.getElem?_eq_getElem hlt]
      show some _ = some _
      rw [List.getD_eq_get _ _ hlt]
      simp only [if_pos h0]
      rfl
    · rw [if_neg h0]
      show some _ = some _
      simp only [if_neg h0]

theorem newOffsetsChk_eq (nT : List Token) (ch : ChangeRange)
    (h1 : ch.newTokStart < ch.newTokEnd) (h2 : ch.newTokEnd ≤ nT.length) :
    newOffsetsChk nT ch = some (newOffsets nT ch) := by
  unfold newOffsetsChk newOffsets
  have hs : ch.newTokStart < nT.length := by omega
  have he : ch.newTokEnd - 1 < nT.length := by omega
  rw [List.getElem?_eq_getElem hs, List.getElem?_eq_getElem he]
  rw [List.getD_eq_get _ _ hs, List.getD_eq_get _ _ he]
  rfl

theorem buildDiffsChk_eq (oldS newS : Str) (oT nT : List Token) :
    ∀ (rs : List ChangeRange), (∀ r ∈ rs, RangeWF oT.length nT.length r) →
    buildDiffsChk oldS newS oT nT rs = some (buildDiffs oldS newS oT nT rs) := by
  intro rs
  induction rs with
  | nil => intro _ ; rfl
  | cons ch rest ih =>
    intro hwf
    have hch := hwf ch (List.mem_cons_self _ _)
    have hold := oldOffsetsChk_eq oT ch hch.1 hch.2.1
    show buildDiffsChk oldS newS oT nT (ch :: rest) = _
    rw [buildDiffs_cons]
    by_cases hN : ch.newTokStart < ch.newTokEnd
    · have hnew := newOffsetsChk_eq nT ch hN hch.2.2.2.1
      simp only [buildDiffsChk, hold, if_pos hN, hnew]
      by_cases hguard : strSlice oldS (oldOffsets oT ch).startIndex
          (oldOffsets oT ch).endIndex =
          strSlice newS (newOffsets nT ch).startIndex (newOffsets nT ch).endIndex
      · rw [if_pos hguard, if_pos hguard]
        exact ih (fun r hr => hwf r (List.mem_cons_of_mem _ hr))
      · rw [if_neg hguard, if_neg hguard]
        rw [classifyChangeChk_eq, ih (fun r hr => hwf r (List.mem_cons_of_mem _ hr))]
    · simp only [buildDiffsChk, hold, if_neg hN]
      by_cases hguard : strSlice oldS (oldOffsets oT ch).startIndex
          (oldOffsets oT ch).endIndex = ([] : Str)
      · rw [if_pos hguard, if_pos hguard]
        exact ih (fun r hr => hwf r (List.mem_cons_of_mem _ hr))
      · rw [if_neg hguard, if_neg hguard]
        rw [classifyChangeChk_eq, ih (fun r hr => hwf r (List.mem_cons_of_mem _ hr))]

/-- Claim C10: `getTextDiffs` is total — on every pair of inputs (including
empty strings) the checked pipeline, which returns `none` wherever the
source would dereference a missing array element (token lookups in offset
computation, DP rows in the edit distance, the final `prev[m]`), returns
`some` of the total model's result: no access is out of bounds and no
exception can be raised. -/
theorem claim_C10_total (wc : Char → Bool) (norm : Str → Str) (x y : Str) :
    getTextDiffsChk wc norm x y = some (getTextDiffs wc norm x y) := by
  show (if norm x = norm y then some [] else _) = _
  rw [getTextDiffs_eq]
  split_ifs with h
  · rfl
  · apply buildDiffsChk_eq
    intro r hr
    exact ((mergeRanges_spec _ _ _ _ _ (pipeline_changes_wf _ _)
      (pipeline_changes_chain _ _)).1 r hr).1

end TD

